import Mathlib

/-!
Shallow embedding of the GPU Ant Colony System implementation in
`src/gpu_ants.cu`, together with proofs of the specification claims.

Modelling conventions:
* `float` values are modelled as rationals (`ℚ`); exact arithmetic stands in
  for floating point, so "within floating-point tolerance" becomes equality.
* One ant's kernel execution is sequentialized.  The per-ant lane group is
  the default configuration `threads_per_block = WARP_SIZE = 32`
  (`RunContext` line 750; the selective-memory strategy forces 32).
* Concurrent reads of the shared pheromone memory during construction are
  modelled by an oracle `pher : step → u → v → ℚ` giving the value each read
  observes; this captures the deliberately racy memory of the design.
* The per-ant random stream (curand, not part of src/) is modelled from the
  spec as abstract streams of draws, one `q` draw and one roulette draw per
  construction step.
-/

namespace GPUACS

/-- `WARP_SIZE`, gpu_ants.cu line 21. -/
def WARP_SIZE : Nat := 32

/-- `MAX_VISITED_SIZE`, gpu_ants.cu line 23: size (in 32-bit words) of the
shared-memory visited bitmask. -/
def MAX_VISITED_SIZE : Nat := 473

/-- `is_node_visited`, lines 96-98: tests bit `node & 31` of word
`visited[node >> 5]`.  The word array is a list of naturals; all values stay
below `2^32` so no truncation is needed. -/
def is_node_visited (visited : List Nat) (node : Nat) : Bool :=
  (visited.getD (node >>> 5) 0) &&& (1 <<< (node &&& 31)) != 0

/-- `set_node_visited`, lines 101-103: ors bit `node & 31` into word
`visited[node >> 5]`. -/
def set_node_visited (visited : List Nat) (node : Nat) : List Nat :=
  visited.set (node >>> 5) ((visited.getD (node >>> 5) 0) ||| (1 <<< (node &&& 31)))

/-- Modelled from the spec: the group primitives of cuda_utils.h are not in
src/.  §4.1: `reduce(v)` returns the sum of `v` across all `W` lanes. -/
def warp_reduce (f : Nat → ℚ) (W : Nat) : ℚ :=
  ((List.range W).map f).sum

/-- Modelled from the spec: §4.1 `scan(v)` is the inclusive prefix sum — lane
`i` holds the sum of the values of lanes `0..i`. -/
def warp_scan (f : Nat → ℚ) (i : Nat) : ℚ :=
  ((List.range (i + 1)).map f).sum

/-- Modelled from the spec: §4.1 arg-max reduction, ties broken by lowest
lane index ("first writer wins under strict `<` comparison").  Returns the
winning lane index. -/
def argmaxLane (f : Nat → ℚ) (W : Nat) : Nat :=
  (List.range W).foldl (fun b i => if f b < f i then i else b) 0

/-- Modelled from the spec: `warp_reduce_arg_max(id, value)` returns the id
held by the lane with the maximum value. -/
def warp_reduce_arg_max (ids : Nat → Nat) (f : Nat → ℚ) (W : Nat) : Nat :=
  ids (argmaxLane f W)

/-- Modelled from the spec: the extended arg-max also hands back the maximum
value itself (the `*max` out-parameter of `warp_reduce_arg_max_ext`). -/
def warp_reduce_arg_max_val (f : Nat → ℚ) (W : Nat) : ℚ :=
  f (argmaxLane f W)

/-- Roulette-wheel index selection, lines 175-179 (also 344-349 and 513-517):
`min(WARP_SIZE-1, __popc(__ballot(my_sum <= t)))` where `my_sum` is the
inclusive prefix sum of lane scores and `t` the scaled draw. -/
def rouletteIdx (f : Nat → ℚ) (t : ℚ) : Nat :=
  min (WARP_SIZE - 1) ((List.range WARP_SIZE).countP (fun i => decide (warp_scan f i ≤ t)))

/-- The claim's reading of the roulette rule (§4.4 step 2 of the spec):
"select the first candidate whose prefix sum is ≥ the draw".  Stated as a
separate definition to compare against `rouletteIdx`. -/
def specRouletteIdx (f : Nat → ℚ) (t : ℚ) : Nat :=
  (((List.range WARP_SIZE).find? (fun i => decide (t ≤ warp_scan f i)))).getD WARP_SIZE

/-- Problem data (`DeviceTSPData`, lines 704-717): the matrices are read-only
for the run and are modelled as total functions; `nn c l` is entry `l` of
node `c`'s nearest-neighbour list (`nn_lists + curr * NN_SIZE`). -/
structure Problem where
  dimension : Nat
  heuristic : Nat → Nat → ℚ
  dist : Nat → Nat → ℚ
  nn : Nat → Nat → Nat

/-- A call of the pheromone memory's `update(u, v, decay, deposit)`.  `step`
is the construction step that issued it (`dimension` for the closing-edge
update after the main loop) and `closing` marks closing-edge updates. -/
structure PherUpdate where
  step : Nat
  u : Nat
  v : Nat
  decay : ℚ
  deposit : ℚ
  closing : Bool

/-- The per-ant mutable state of `acs_calc_solution`: the shared-memory
visited bitmask, the route written so far (`route[0..iter]`), the current
node `curr_pos[0]`, and the trace of local pheromone updates issued. -/
structure AntRun where
  visited : List Nat
  route : List Nat
  curr : Nat
  events : List PherUpdate

/-- Candidate score of lane `l`, lines 158-165: an unvisited nearest
neighbour scores `heuristic(curr,nbr) * pheromone(curr,nbr)`, a visited one
scores 0. -/
def nnScore (p : Problem) (pher : Nat → Nat → ℚ) (vis : List Nat) (curr l : Nat) : ℚ :=
  let nn_id := p.nn curr l
  if is_node_visited vis nn_id then 0 else p.heuristic curr nn_id * pher curr nn_id

/-- Exploitation branch of `acs_calc_solution`, lines 168-172: arg-max of the
candidate scores over the 32 lanes. -/
def acsExploitNext (p : Problem) (pher : Nat → Nat → ℚ) (vis : List Nat) (curr : Nat) : Nat :=
  warp_reduce_arg_max (p.nn curr) (nnScore p pher vis curr) WARP_SIZE

/-- Exploration (roulette-wheel) branch of `acs_calc_solution`, lines
173-181: prefix sums, scaled uniform draw `r * total`, index selection, and
the already-visited re-check that yields `dimension` ("no selection"). -/
def acsRouletteNext (p : Problem) (pher : Nat → Nat → ℚ) (vis : List Nat) (curr : Nat)
    (r : ℚ) : Nat :=
  let total := warp_scan (nnScore p pher vis curr) (WARP_SIZE - 1)
  let best_nn := p.nn curr (rouletteIdx (nnScore p pher vis curr) (r * total))
  if is_node_visited vis best_nn then p.dimension else best_nn

/-- Fallback scan of one thread, lines 188-198: thread `tid` of the
32-thread block walks nodes `tid, tid+32, ...`, keeping the running best
unvisited node (`my_best_id`, seeded with `dimension`) and its score
(`my_max`, seeded with 0, updated under strict `<`). -/
def acsFallbackThread (p : Problem) (pher : Nat → Nat → ℚ) (vis : List Nat) (curr tid : Nat) :
    Nat × ℚ :=
  ((List.range p.dimension).filter (fun i => i % 32 == tid)).foldl
    (fun b i =>
      if is_node_visited vis i then b
      else
        let product := p.heuristic curr i * pher curr i
        (if b.2 < product then i else b.1, max b.2 product))
    (p.dimension, 0)

/-- Fallback reduction, lines 199-217: arg-max over the per-thread bests.
With the default 32-thread block there is a single warp, so the two-level
reduction collapses to one warp arg-max over the 32 thread results. -/
def acsFallbackNext (p : Problem) (pher : Nat → Nat → ℚ) (vis : List Nat) (curr : Nat) : Nat :=
  warp_reduce_arg_max (fun tid => (acsFallbackThread p pher vis curr tid).1)
    (fun tid => (acsFallbackThread p pher vis curr tid).2) WARP_SIZE

/-- One node selection of `acs_calc_solution`, lines 153-217: candidate
scoring with the `__any` guard, the q0 branch, and the fallback scan when
`next_pos` is still `dimension`. -/
def acsSelectNext (p : Problem) (pher : Nat → Nat → ℚ) (vis : List Nat) (curr : Nat)
    (q0 q r : ℚ) : Nat :=
  let anyUnvisited := (List.range WARP_SIZE).any (fun l => !(is_node_visited vis (p.nn curr l)))
  let next0 :=
    if anyUnvisited then
      if q < q0 then acsExploitNext p pher vis curr
      else acsRouletteNext p pher vis curr r
    else p.dimension
  if next0 == p.dimension then acsFallbackNext p pher vis curr else next0

/-- One loop iteration of `acs_calc_solution` (selection plus the `tid == 0`
commit, lines 219-232): append the chosen node, mark it visited, advance
`curr_pos`, and issue the local pheromone update on the traversed edge
(`u = next`, `v = route[iter-1]`) iff `iter % pher_mem_update_freq == 0`. -/
def acsStep (p : Problem) (q0 phi initPher : ℚ) (m : Nat) (pher : Nat → Nat → ℚ)
    (q r : ℚ) (iter : Nat) (s : AntRun) : AntRun :=
  let next := acsSelectNext p pher s.visited s.curr q0 q r
  { visited := set_node_visited s.visited next
    route := s.route ++ [next]
    curr := next
    events := s.events ++
      (if iter % m == 0 then [⟨iter, next, s.curr, phi, initPher, false⟩] else []) }

/-- The first `n` iterations of the construction loop of
`acs_calc_solution`, lines 140-233, starting from the initial state (bitmask
cleared, `route[0]` = start node marked visited).  `pher t u v` is the
pheromone value the ant observes at step `t` for edge `(u,v)`; `qd`/`rd` are
the per-step random draws. -/
def acsConstructN (p : Problem) (q0 phi initPher : ℚ) (m : Nat)
    (pher : Nat → Nat → Nat → ℚ) (qd rd : Nat → ℚ) (start n : Nat) : AntRun :=
  (List.range' 1 n).foldl
    (fun s iter => acsStep p q0 phi initPher m (pher iter) (qd iter) (rd iter) iter s)
    { visited := set_node_visited (List.replicate MAX_VISITED_SIZE 0) start
      route := [start]
      curr := start
      events := [] }

/-- The full construction loop (`iter = 1 .. dimension-1`). -/
def acsConstruct (p : Problem) (q0 phi initPher : ℚ) (m : Nat)
    (pher : Nat → Nat → Nat → ℚ) (qd rd : Nat → ℚ) (start : Nat) : AntRun :=
  acsConstructN p q0 phi initPher m pher qd rd start (p.dimension - 1)

/-- Distance of route edge `i`, lines 242-243:
`dist_matrix[route[i] * dimension + route[(i+1) % dimension]]`. -/
def tourDistAt (p : Problem) (route : List Nat) (i : Nat) : ℚ :=
  p.dist (route.getD i 0) (route.getD ((i + 1) % p.dimension) 0)

/-- Per-thread strided partial tour length, lines 241-244: thread `tid` of a
`B`-thread block sums the edges `tid, tid+B, ...`. -/
def threadStrideSum (p : Problem) (route : List Nat) (B tid : Nat) : ℚ :=
  ((List.range p.dimension).filter (fun i => i % B == tid)).foldl
    (fun s i => s + tourDistAt p route i) 0

/-- Tour length reduction of `acs_calc_solution`, lines 240-259: warp-level
reduce per warp into `know[]`, then the main thread sums the `num_warps`
warp totals.  The block has `nw` warps (`blockDim = nw * 32`). -/
def acsAntValue (p : Problem) (route : List Nat) (nw : Nat) : ℚ :=
  (List.range nw).foldl
    (fun total w =>
      total + warp_reduce (fun l => threadStrideSum p route (nw * 32) (w * 32 + l)) WARP_SIZE)
    0

/-- The claim's independent tour length: the sum over all `i ∈ [0,N)` of
`dist(route[i], route[(i+1) mod N])` (spec §8). -/
def specTourLength (p : Problem) (route : List Nat) : ℚ :=
  ∑ i ∈ Finset.range p.dimension, tourDistAt p route i

/-- Result of the whole `acs_calc_solution` kernel for one ant: the
construction loop, then the closing-edge local update (lines 234-238 — this
code is outside any `tid == 0` guard, so each of the `nw * 32` threads of
the block executes it), then the tour-length reduction written to the ant's
value slot. -/
def acsKernel (p : Problem) (q0 phi initPher : ℚ) (m : Nat)
    (pher : Nat → Nat → Nat → ℚ) (qd rd : Nat → ℚ) (start nw : Nat) :
    AntRun × ℚ :=
  let s := acsConstruct p q0 phi initPher m pher qd rd start
  ({ s with
      events := s.events ++
        (if p.dimension % m == 0 then
          (List.range (nw * 32)).map (fun _ =>
            ⟨p.dimension, s.route.getD (p.dimension - 1) 0, s.route.getD 0 0, phi, initPher,
              true⟩)
        else []) },
    acsAntValue p s.route nw)

/-! ### Selective-memory strategy (`acs_spm_calc_solution`, lines 263-441)

The `SelectivePhmem` class lives in gpu_phmem.h, which is not part of src/;
its per-node short lists are modelled by oracles `slId curr slot` /
`slVal curr slot` (the values the racy concurrent reads observe), the slot
count by `cap` (the controller constructs the memory with capacity 8, line
1165), and the shared default value by `dflt`. -/

/-- Modelled from the spec: §4.3 read semantics of the selective-sparse
memory — "a queried edge returns its short-list value if present, else the
node's default". -/
def spmGet (slId : Nat → Nat → Nat) (slVal : Nat → Nat → ℚ) (cap : Nat) (dflt : ℚ)
    (u v : Nat) : ℚ :=
  match (List.range cap).find? (fun s => slId u s == v) with
  | some s => slVal u s
  | none => dflt

/-- Lane `tid`'s `my_node` in the exploitation branch, lines 322-325: lanes
`tid < capacity` load the short-list entry, the rest leave `my_node`
uninitialized (modelled by the arbitrary `junk tid`). -/
def spmSlotNode (slId : Nat → Nat → Nat) (cap : Nat) (junk : Nat → Nat) (curr tid : Nat) :
    Nat :=
  if tid < cap then slId curr tid else junk tid

/-- Lane `tid`'s `my_product` in the exploitation branch, lines 321-328: the
short-list entry scores `trails[tid] * heuristic[node]` when it is a valid
unvisited node, otherwise 0. -/
def spmSlotProduct (p : Problem) (slId : Nat → Nat → Nat) (slVal : Nat → Nat → ℚ)
    (cap : Nat) (vis : List Nat) (curr tid : Nat) : ℚ :=
  if tid < cap then
    let node := slId curr tid
    if node < p.dimension ∧ is_node_visited vis node = false then
      slVal curr tid * p.heuristic curr node
    else 0
  else 0

/-- `best_node` / `max_product` of lines 329-331: extended warp arg-max over
the short-list candidates. -/
def spmBestNode (p : Problem) (slId : Nat → Nat → Nat) (slVal : Nat → Nat → ℚ)
    (cap : Nat) (junk : Nat → Nat) (vis : List Nat) (curr : Nat) : Nat :=
  warp_reduce_arg_max (spmSlotNode slId cap junk curr)
    (spmSlotProduct p slId slVal cap vis curr) WARP_SIZE

/-- The maximum short-list product (`max_product` out-value of line 330). -/
def spmMaxProduct (p : Problem) (slId : Nat → Nat → Nat) (slVal : Nat → Nat → ℚ)
    (cap : Nat) (vis : List Nat) (curr : Nat) : ℚ :=
  warp_reduce_arg_max_val (spmSlotProduct p slId slVal cap vis curr) WARP_SIZE

/-- `closest_unvisited_nn`, lines 333-334: the neighbour held by the first
lane whose nearest neighbour is unvisited (`__ffs(__ballot(...)) - 1`).
Only evaluated under the `__any` guard, so the `getD 0` default is never
observed in a real execution. -/
def spmClosestUnvisitedNN (p : Problem) (vis : List Nat) (curr : Nat) : Nat :=
  p.nn curr
    (((List.range WARP_SIZE).find? (fun l => !(is_node_visited vis (p.nn curr l)))).getD 0)

/-- `nn_product`, line 335: the closest unvisited neighbour scored with the
default pheromone level. -/
def spmNNProduct (p : Problem) (initPher : ℚ) (vis : List Nat) (curr : Nat) : ℚ :=
  initPher * p.heuristic curr (spmClosestUnvisitedNN p vis curr)

/-- Exploitation selection of `acs_spm_calc_solution`, lines 318-341: take
the closest unvisited neighbour at default pheromone if it beats the best
short-list candidate, else the best short-list candidate. -/
def spmExploitNext (p : Problem) (slId : Nat → Nat → Nat) (slVal : Nat → Nat → ℚ)
    (cap : Nat) (initPher : ℚ) (junk : Nat → Nat) (vis : List Nat) (curr : Nat) : Nat :=
  if spmNNProduct p initPher vis curr > spmMaxProduct p slId slVal cap vis curr then
    spmClosestUnvisitedNN p vis curr
  else spmBestNode p slId slVal cap junk vis curr

/-- Candidate score in the spm roulette branch, line 344: unvisited
neighbours score `heuristic * memory.get(curr, nn_id)`. -/
def spmNNScore (p : Problem) (slId : Nat → Nat → Nat) (slVal : Nat → Nat → ℚ)
    (cap : Nat) (dflt : ℚ) (vis : List Nat) (curr l : Nat) : ℚ :=
  let nn_id := p.nn curr l
  if is_node_visited vis nn_id then 0
  else p.heuristic curr nn_id * spmGet slId slVal cap dflt curr nn_id

/-- Roulette branch of `acs_spm_calc_solution`, lines 342-352. -/
def spmRouletteNext (p : Problem) (slId : Nat → Nat → Nat) (slVal : Nat → Nat → ℚ)
    (cap : Nat) (dflt : ℚ) (vis : List Nat) (curr : Nat) (r : ℚ) : Nat :=
  let total := warp_scan (spmNNScore p slId slVal cap dflt vis curr) (WARP_SIZE - 1)
  let best_nn :=
    p.nn curr (rouletteIdx (spmNNScore p slId slVal cap dflt vis curr) (r * total))
  if is_node_visited vis best_nn then p.dimension else best_nn

/-- Short-list phase of the spm fallback scan, lines 371-381: lanes
`tid < capacity` fold their short-list entry into the running best `b` when
it is a valid unvisited node. -/
def spmSlotFold (p : Problem) (slId : Nat → Nat → Nat) (slVal : Nat → Nat → ℚ)
    (cap : Nat) (vis : List Nat) (curr tid : Nat) (b : Nat × ℚ) : Nat × ℚ :=
  if tid < cap then
    let node := slId curr tid
    if node < p.dimension ∧ is_node_visited vis node = false then
      let product := slVal curr tid * p.heuristic curr node
      (if b.2 < product then node else b.1, max b.2 product)
    else b
  else b

/-- Fallback scan of one spm thread, lines 358-381: first the strided
heuristic-only scan (`node_total = (!visited) * heuristic`, `my_node`
uninitialized — the arbitrary `junkT`), then `my_product *= initial
pheromone` (line 369), then the short-list phase. -/
def spmFallbackThread (p : Problem) (slId : Nat → Nat → Nat) (slVal : Nat → Nat → ℚ)
    (cap : Nat) (initPher : ℚ) (vis : List Nat) (curr tid junkT : Nat) : Nat × ℚ :=
  let base :=
    ((List.range p.dimension).filter (fun i => i % 32 == tid)).foldl
      (fun b i =>
        let node_total := if is_node_visited vis i then 0 else p.heuristic curr i
        (if b.2 < node_total then i else b.1, max b.2 node_total))
      (junkT, 0)
  spmSlotFold p slId slVal cap vis curr tid (base.1, base.2 * initPher)

/-- Fallback reduction of `acs_spm_calc_solution`, lines 382-401 (single
warp: the kernel is launched with 32 threads per block, line 1182). -/
def spmFallbackNext (p : Problem) (slId : Nat → Nat → Nat) (slVal : Nat → Nat → ℚ)
    (cap : Nat) (initPher : ℚ) (junk : Nat → Nat) (vis : List Nat) (curr : Nat) : Nat :=
  warp_reduce_arg_max
    (fun tid => (spmFallbackThread p slId slVal cap initPher vis curr tid (junk tid)).1)
    (fun tid => (spmFallbackThread p slId slVal cap initPher vis curr tid (junk tid)).2)
    WARP_SIZE

/-- One node selection of `acs_spm_calc_solution`, lines 303-402. -/
def spmSelectNext (p : Problem) (slId : Nat → Nat → Nat) (slVal : Nat → Nat → ℚ)
    (cap : Nat) (dflt initPher : ℚ) (junk : Nat → Nat) (vis : List Nat) (curr : Nat)
    (q0 q r : ℚ) : Nat :=
  let anyUnvisited := (List.range WARP_SIZE).any (fun l => !(is_node_visited vis (p.nn curr l)))
  let next0 :=
    if anyUnvisited then
      if q < q0 then spmExploitNext p slId slVal cap initPher junk vis curr
      else spmRouletteNext p slId slVal cap dflt vis curr r
    else p.dimension
  if next0 == p.dimension then spmFallbackNext p slId slVal cap initPher junk vis curr
  else next0

/-- One loop iteration of `acs_spm_calc_solution` (selection plus commit,
lines 404-418): the local update is issued iff `iter % freq == 0`, with the
deposit value `initial_pheromone = memory.default_pheromone()` (line 301). -/
def spmStep (p : Problem) (slId : Nat → Nat → Nat) (slVal : Nat → Nat → ℚ) (cap : Nat)
    (q0 phi dflt : ℚ) (m : Nat) (junk : Nat → Nat) (q r : ℚ) (iter : Nat) (s : AntRun) :
    AntRun :=
  let next := spmSelectNext p slId slVal cap dflt dflt junk s.visited s.curr q0 q r
  { visited := set_node_visited s.visited next
    route := s.route ++ [next]
    curr := next
    events := s.events ++
      (if iter % m == 0 then [⟨iter, next, s.curr, phi, dflt, false⟩] else []) }

/-- The first `n` iterations of `acs_spm_calc_solution`, lines 292-419.  The
short-list oracles are per-step (`slId t`, `slVal t`), like the pheromone
oracle of the dense strategies.  There is no closing-edge update in this
kernel. -/
def spmConstructN (p : Problem) (slId : Nat → Nat → Nat → Nat)
    (slVal : Nat → Nat → Nat → ℚ) (cap : Nat) (q0 phi dflt : ℚ) (m : Nat)
    (junk : Nat → Nat → Nat) (qd rd : Nat → ℚ) (start n : Nat) : AntRun :=
  (List.range' 1 n).foldl
    (fun s iter =>
      spmStep p (slId iter) (slVal iter) cap q0 phi dflt m (junk iter) (qd iter) (rd iter)
        iter s)
    { visited := set_node_visited (List.replicate MAX_VISITED_SIZE 0) start
      route := [start]
      curr := start
      events := [] }

/-- The full spm construction (`iter = 1 .. dimension-1`) plus the
tour-length reduction of lines 420-440 (single warp). -/
def spmKernel (p : Problem) (slId : Nat → Nat → Nat → Nat)
    (slVal : Nat → Nat → Nat → ℚ) (cap : Nat) (q0 phi dflt : ℚ) (m : Nat)
    (junk : Nat → Nat → Nat) (qd rd : Nat → ℚ) (start : Nat) : AntRun × ℚ :=
  let s := spmConstructN p slId slVal cap q0 phi dflt m junk qd rd start (p.dimension - 1)
  (s, acsAntValue p s.route 1)

/-! ### Per-step strategy (`acs_select_next_node`, lines 448-581, driven by
`GPUACSSeparate::build_ant_solutions`, lines 1262-1303)

Visited state persists across launches in the per-ant byte array
`ants_marked_nodes` (modelled as a `List Bool` of length `dimension`). -/

/-- Per-ant state across the per-step kernel launches. -/
structure SepRun where
  marked : List Bool
  route : List Nat
  count : Nat
  events : List PherUpdate

/-- Candidate score of lane `l` in `acs_select_next_node`, lines 495-503. -/
def sepNNScore (p : Problem) (pher : Nat → Nat → ℚ) (marked : List Bool) (curr l : Nat) :
    ℚ :=
  let nn_id := p.nn curr l
  if marked.getD nn_id false then 0 else p.heuristic curr nn_id * pher curr nn_id

/-- Exploitation branch, lines 506-510. -/
def sepExploitNext (p : Problem) (pher : Nat → Nat → ℚ) (marked : List Bool) (curr : Nat) :
    Nat :=
  warp_reduce_arg_max (p.nn curr) (sepNNScore p pher marked curr) WARP_SIZE

/-- Roulette branch, lines 511-519. -/
def sepRouletteNext (p : Problem) (pher : Nat → Nat → ℚ) (marked : List Bool) (curr : Nat)
    (r : ℚ) : Nat :=
  let total := warp_scan (sepNNScore p pher marked curr) (WARP_SIZE - 1)
  let best_nn := p.nn curr (rouletteIdx (sepNNScore p pher marked curr) (r * total))
  if marked.getD best_nn false then p.dimension else best_nn

/-- Fallback scan of one thread, lines 526-536: the score of a visited node
is written as 0 (`product = was_visited[i] ? 0 : ...`). -/
def sepFallbackThread (p : Problem) (pher : Nat → Nat → ℚ) (marked : List Bool)
    (curr tid : Nat) : Nat × ℚ :=
  ((List.range p.dimension).filter (fun i => i % 32 == tid)).foldl
    (fun b i =>
      let product := if marked.getD i false then 0 else p.heuristic curr i * pher curr i
      (if b.2 < product then i else b.1, max b.2 product))
    (p.dimension, 0)

/-- Fallback reduction, lines 537-561 (default 32-thread block, one warp). -/
def sepFallbackNext (p : Problem) (pher : Nat → Nat → ℚ) (marked : List Bool) (curr : Nat) :
    Nat :=
  warp_reduce_arg_max (fun tid => (sepFallbackThread p pher marked curr tid).1)
    (fun tid => (sepFallbackThread p pher marked curr tid).2) WARP_SIZE

/-- One node selection of `acs_select_next_node`, lines 490-561. -/
def sepSelectNext (p : Problem) (pher : Nat → Nat → ℚ) (marked : List Bool) (curr : Nat)
    (q0 q r : ℚ) : Nat :=
  let anyUnvisited := (List.range WARP_SIZE).any (fun l => !(marked.getD (p.nn curr l) false))
  let next0 :=
    if anyUnvisited then
      if q < q0 then sepExploitNext p pher marked curr
      else sepRouletteNext p pher marked curr r
    else p.dimension
  if next0 == p.dimension then sepFallbackNext p pher marked curr else next0

/-- One launch of `acs_select_next_node` for one ant, lines 476-581: read
`route_len` and the current position, mark it (line 486), select the next
node, then the `tid == 0` commit (lines 563-580): mark and append the node,
increment the visited count, issue the local pheromone update
`update(pos, next, phi, initial_pheromone)` unconditionally, and on the
final step additionally the closing-edge update `update(next, route[0], phi,
initial_pheromone)`. -/
def sepKernelCall (p : Problem) (q0 phi initPher : ℚ) (pher : Nat → Nat → ℚ) (q r : ℚ)
    (s : SepRun) : SepRun :=
  let route_len := s.count
  let pos := s.route.getD (route_len - 1) 0
  let marked := s.marked.set pos true
  let next := sepSelectNext p pher marked pos q0 q r
  { marked := marked.set next true
    route := s.route ++ [next]
    count := route_len + 1
    events := s.events ++ [⟨route_len, pos, next, phi, initPher, false⟩] ++
      (if route_len + 1 == p.dimension then
        [⟨p.dimension, next, s.route.getD 0 0, phi, initPher, true⟩]
      else []) }

/-- `n` launches of `acs_select_next_node` starting from the state left by
`acs_ant_init` and the `fill` of `ants_marked_nodes` (lines 1266-1268):
route `[start]`, visited count 1, all marks clear. -/
def sepRunN (p : Problem) (q0 phi initPher : ℚ) (pher : Nat → Nat → Nat → ℚ)
    (qd rd : Nat → ℚ) (start n : Nat) : SepRun :=
  (List.range' 1 n).foldl
    (fun s i => sepKernelCall p q0 phi initPher (pher i) (qd i) (rd i) s)
    { marked := List.replicate p.dimension false
      route := [start]
      count := 1
      events := [] }

/-- The whole per-step construction: `dimension - 1` launches (loop at lines
1271-1290). -/
def sepRun (p : Problem) (q0 phi initPher : ℚ) (pher : Nat → Nat → Nat → ℚ)
    (qd rd : Nat → ℚ) (start : Nat) : SepRun :=
  sepRunN p q0 phi initPher pher qd rd start (p.dimension - 1)

/-- Proof helper: the running best-candidate update shared by all fallback
scans (`my_best_id = (my_max < g i) ? i : my_best_id; my_max = max(my_max,
g i)`). -/
def scanStep (g : Nat → ℚ) (b : Nat × ℚ) (i : Nat) : Nat × ℚ :=
  (if b.2 < g i then i else b.1, max b.2 (g i))

/-- `eval_ants_solutions`, lines 584-614: one 32-thread warp sums the route
distances by stride and warp-reduces; the result is written to the ant's
value slot. -/
def evalAntsSolutions (p : Problem) (route : List Nat) : ℚ :=
  warp_reduce (fun tid => threadStrideSum p route WARP_SIZE tid) WARP_SIZE

/-! ### Controller and global update -/

/-- Best-ant scan of `BaseGPUACS::run`, lines 933-936: `best_index` starts
at 0 and is replaced whenever `ant_values[i] < ant_values[best_index]`. -/
def bestIndexOf (values : List ℚ) : Nat :=
  (List.range values.length).foldl
    (fun b i => if values.getD i 0 < values.getD b 0 then i else b) 0

/-- Best-record update of `BaseGPUACS::run`, lines 951-968: the recorded
best value is replaced (once per iteration) iff the iteration's best ant
value strictly improves on it. -/
def controllerStep (values : List ℚ) (best : ℚ) : ℚ :=
  if values.getD (bestIndexOf values) 0 < best then values.getD (bestIndexOf values) 0
  else best

/-- The recorded best value over a run: entry `i` of the scan is the value
after `i` iterations (entry 0 is the initial `FLT_MAX` seed, line 762). -/
def bestHistory (iters : List (List ℚ)) (best0 : ℚ) : List ℚ :=
  iters.scanl (fun b vs => controllerStep vs b) best0

/-- The pheromone `update` contract (lines 650-651, §3 of the spec):
`value' = (1-decay)*value + decay*deposit`. -/
def pherUpdateVal (decay old deposit : ℚ) : ℚ :=
  (1 - decay) * old + decay * deposit

/-- Loop body of `acs_global_pheromone_update` (dense matrix version, lines
646-654): edge `i` of the best route gets
`val = (1-rho) * pheromone[u*dim+v] + rho * delta` written to both
`[u*dim+v]` and `[v*dim+u]`.  The flat matrix is modelled as `Nat → ℚ`. -/
def gpuEdgeWrite (dim : Nat) (rho delta : ℚ) (best_route : List Nat) (mcur : Nat → ℚ)
    (i : Nat) : Nat → ℚ :=
  let u := best_route.getD i 0
  let v := best_route.getD ((i + 1) % dim) 0
  let val := (1 - rho) * mcur (u * dim + v) + rho * delta
  fun k => if k = u * dim + v ∨ k = v * dim + u then val else mcur k

/-- `acs_global_pheromone_update` (dense matrix version, lines 636-655):
`delta = 1 / *best_value`; every `i < dimension` is processed (the grid
strides partition `[0,dim)` over the threads; since the written cells of
distinct `i` are disjoint for a duplicate-free route, the interleaving is
modelled by the sequential fold). -/
def acsGlobalPheromoneUpdate (dim : Nat) (rho : ℚ) (mat : Nat → ℚ) (best_value : ℚ)
    (best_route : List Nat) : Nat → ℚ :=
  (List.range dim).foldl (gpuEdgeWrite dim rho (1 / best_value) best_route) mat

/-- A small concrete instance (3 nodes, unit distances and heuristic,
neighbour list `l % 3`) used to evaluate the kernels at concrete inputs. -/
def exProblem : Problem :=
  { dimension := 3
    heuristic := fun _ _ => 1
    dist := fun _ _ => 1
    nn := fun _ l => l % 3 }

/-- Proof invariant for the monolithic (and selective-memory) construction
loop after `n` iterations: the route is a growing duplicate-free list of
in-range nodes that coincides with the visited bitmask, `curr` is the last
route entry, and the event trace contains exactly the local updates due
under the frequency rule, carrying `(u,v) = (route[t], route[t-1])`, the
decay `phi` and the configured deposit. -/
def AcsInv (p : Problem) (phi initPher : ℚ) (m n : Nat) (s : AntRun) : Prop :=
  s.visited.length = MAX_VISITED_SIZE ∧
  s.route.length = n + 1 ∧
  s.route.Nodup ∧
  (∀ x ∈ s.route, x < p.dimension) ∧
  (∀ x, x < p.dimension → (is_node_visited s.visited x = true ↔ x ∈ s.route)) ∧
  s.curr = s.route.getD n 0 ∧
  (∀ e ∈ s.events, e.closing = false ∧ e.decay = phi ∧ e.deposit = initPher ∧
    1 ≤ e.step ∧ e.step ≤ n ∧ e.step % m = 0 ∧
    e.u = s.route.getD e.step 0 ∧ e.v = s.route.getD (e.step - 1) 0) ∧
  (∀ t, 1 ≤ t → t ≤ n → t % m = 0 → ∃ e ∈ s.events, e.step = t)

/-- Proof invariant for the per-step construction after `n` kernel launches:
like `AcsInv` but with the byte-array visited marks (which lag one node
behind: the latest route entry is marked only on the next launch), the
visited counter, the unconditional per-step update events, and the closing
update that is issued exactly on the final launch. -/
def SepInv (p : Problem) (phi initPher : ℚ) (n : Nat) (s : SepRun) : Prop :=
  s.marked.length = p.dimension ∧
  s.route.length = n + 1 ∧
  s.count = n + 1 ∧
  s.route.Nodup ∧
  (∀ x ∈ s.route, x < p.dimension) ∧
  (∀ x, s.marked.getD x false = true → x ∈ s.route) ∧
  (∀ x ∈ s.route, s.marked.getD x false = true ∨ x = s.route.getD n 0) ∧
  (∀ e ∈ s.events, e.closing = false →
    e.decay = phi ∧ e.deposit = initPher ∧ 1 ≤ e.step ∧ e.step ≤ n ∧
    e.u = s.route.getD (e.step - 1) 0 ∧ e.v = s.route.getD e.step 0) ∧
  (∀ t, 1 ≤ t → t ≤ n → ∃ e ∈ s.events, e.step = t ∧ e.closing = false) ∧
  (∀ e ∈ s.events, e.closing = true →
    e.step = p.dimension ∧ e.decay = phi ∧ e.deposit = initPher ∧
    e.u = s.route.getD (p.dimension - 1) 0 ∧ e.v = s.route.getD 0 0) ∧
  ((s.events.filter (fun e => e.closing)).length
    = if p.dimension ≤ n + 1 ∧ 2 ≤ p.dimension then 1 else 0)

/-! ## Lemmas about the visited bitmask -/

theorem is_node_visited_eq_testBit (v : List Nat) (n : Nat) :
    is_node_visited v n = (v.getD (n >>> 5) 0).testBit (n &&& 31) := by
  have h : v.getD (n >>> 5) 0 &&& (1 <<< (n &&& 31)) ≠ 0 ↔
      (v.getD (n >>> 5) 0).testBit (n &&& 31) = true := by
    rw [Nat.shiftLeft_eq, one_mul, Nat.and_two_pow]
    rcases hb : (v.getD (n >>> 5) 0).testBit (n &&& 31) <;> simp [hb]
  unfold is_node_visited
  rcases hb : (v.getD (n >>> 5) 0).testBit (n &&& 31)
  · simp only [hb, iff_false] at h
    simpa using h
  · simp only [hb, iff_true] at h
    simpa using h

theorem word_decomp (n : Nat) : n = 32 * (n >>> 5) + (n &&& 31) ∧ n &&& 31 < 32 := by
  have h1 : n >>> 5 = n / 32 := by
    rw [Nat.shiftRight_eq_div_pow]
  have h2 : n &&& 31 = n % 32 := by
    have h : (31 : Nat) = 2 ^ 5 - 1 := by norm_num
    rw [h, Nat.and_pow_two_sub_one_eq_mod]
  omega

theorem getD_set_self {α : Type} (l : List α) (i : Nat) (a d : α) (h : i < l.length) :
    (l.set i a).getD i d = a := by
  simp [List.getD, List.getElem?_set, h]

theorem getD_set_ne {α : Type} (l : List α) (i j : Nat) (a d : α) (h : i ≠ j) :
    (l.set i a).getD j d = l.getD j d := by
  simp [List.getD, List.getElem?_set, h]

theorem getD_replicate {α : Type} (k i : Nat) (c : α) :
    (List.replicate k c).getD i c = c := by
  simp only [List.getD, List.get?_eq_getElem?, List.getElem?_replicate]
  split <;> rfl

theorem length_set_node_visited (v : List Nat) (a : Nat) :
    (set_node_visited v a).length = v.length := by
  simp [set_node_visited]

theorem is_node_visited_replicate_zero (k n : Nat) :
    is_node_visited (List.replicate k 0) n = false := by
  have h : (List.replicate k (0 : Nat)).getD (n >>> 5) 0 = 0 := by
    simp only [List.getD, List.get?_eq_getElem?, List.getElem?_replicate]
    split <;> rfl
  simp [is_node_visited, h]

theorem is_node_visited_set_iff (v : List Nat) (a b : Nat)
    (ha : a < 32 * v.length) :
    is_node_visited (set_node_visited v a) b = true ↔
      (a = b ∨ is_node_visited v b = true) := by
  obtain ⟨hda, hka⟩ := word_decomp a
  obtain ⟨hdb, hkb⟩ := word_decomp b
  have hwa : a >>> 5 < v.length := by omega
  rcases eq_or_ne (a >>> 5) (b >>> 5) with hw | hw
  · have hget : (set_node_visited v a).getD (b >>> 5) 0
        = v.getD (a >>> 5) 0 ||| 1 <<< (a &&& 31) := by
      rw [set_node_visited, ← hw]
      exact getD_set_self v _ _ _ hwa
    have hkeq : (a &&& 31 = b &&& 31) ↔ (a = b) := by
      constructor <;> (intro h; omega)
    rw [is_node_visited_eq_testBit, is_node_visited_eq_testBit, hget, hw,
      Nat.shiftLeft_eq, one_mul, Nat.testBit_or, Nat.testBit_two_pow, Bool.or_eq_true]
    rw [decide_eq_true_eq, hkeq, or_comm]
  · have hget : (set_node_visited v a).getD (b >>> 5) 0 = v.getD (b >>> 5) 0 := by
      rw [set_node_visited]
      exact getD_set_ne v _ _ _ _ hw
    have hne : a ≠ b := by intro h; exact hw (by rw [h])
    rw [is_node_visited_eq_testBit, is_node_visited_eq_testBit, hget]
    simp [hne]

/-! ## Lemmas about the spec-modelled group primitives -/

theorem argmaxLane_zero (f : Nat → ℚ) : argmaxLane f 0 = 0 := rfl

theorem argmaxLane_succ (f : Nat → ℚ) (W : Nat) :
    argmaxLane f (W + 1) = if f (argmaxLane f W) < f W then W else argmaxLane f W := by
  unfold argmaxLane
  rw [List.range_succ, List.foldl_append]
  rfl

theorem argmaxLane_lt (f : Nat → ℚ) (W : Nat) (h : 0 < W) : argmaxLane f W < W := by
  induction W with
  | zero => omega
  | succ n ih =>
    rw [argmaxLane_succ]
    split
    · omega
    · rcases Nat.eq_zero_or_pos n with hn | hn
      · subst hn; simp [argmaxLane_zero]
      · exact Nat.lt_succ_of_lt (ih hn)

theorem le_argmaxLane (f : Nat → ℚ) (W : Nat) :
    ∀ j, j < W → f j ≤ f (argmaxLane f W) := by
  induction W with
  | zero => intro j hj; omega
  | succ n ih =>
    intro j hj
    rw [argmaxLane_succ]
    split
    · rename_i h
      rcases Nat.lt_succ_iff_lt_or_eq.1 hj with hj' | hj'
      · exact le_trans (ih j hj') (le_of_lt h)
      · subst hj'; rfl
    · rename_i h
      rcases Nat.lt_succ_iff_lt_or_eq.1 hj with hj' | hj'
      · exact ih j hj'
      · subst hj'; exact not_lt.1 h

theorem warp_scan_succ (f : Nat → ℚ) (i : Nat) :
    warp_scan f (i + 1) = warp_scan f i + f (i + 1) := by
  unfold warp_scan
  rw [List.range_succ, List.map_append, List.sum_append]
  simp

theorem warp_scan_mono (f : Nat → ℚ) (h : ∀ i, 0 ≤ f i) (i j : Nat) (hij : i ≤ j) :
    warp_scan f i ≤ warp_scan f j := by
  induction j with
  | zero =>
    have hi : i = 0 := by omega
    subst hi
    exact le_refl _
  | succ n ih =>
    by_cases hi : i = n + 1
    · subst hi
      exact le_refl _
    · have hin : i ≤ n := by omega
      calc warp_scan f i ≤ warp_scan f n := ih hin
        _ ≤ warp_scan f (n + 1) := by
            rw [warp_scan_succ]
            linarith [h (n + 1)]

theorem countP_range_downward (W j : Nat) (pred : Nat → Bool) (hj : j ≤ W)
    (h1 : ∀ k, k < j → pred k = true) (h2 : ∀ k, j ≤ k → k < W → pred k = false) :
    (List.range W).countP pred = j := by
  induction W with
  | zero =>
    simp only [List.range_zero, List.countP_nil]
    omega
  | succ n ih =>
    rw [List.range_succ, List.countP_append]
    rcases Nat.le_succ_iff.mp hj with h' | h'
    · have hn : pred n = false := h2 n h' (Nat.lt_succ_self n)
      have : List.countP pred [n] = 0 := by
        simp [List.countP_cons, hn]
      rw [this, ih h' (fun k hk1 hk2 => h2 k hk1 (Nat.lt_succ_of_lt hk2))]
      omega
    · subst h'
      have hn : pred n = true := h1 n (Nat.lt_succ_self n)
      have hone : List.countP pred [n] = 1 := by
        simp [List.countP_cons, hn]
      have hall : List.countP pred (List.range n) = n := by
        have := List.countP_eq_length (p := pred) (l := List.range n)
        rw [this.2 (fun a ha => h1 a (Nat.lt_succ_of_lt (List.mem_range.1 ha)))]
        exact List.length_range n
      rw [hone, hall]

/-- The selected roulette index is the number of lanes whose prefix sum is
`≤ t`; with nonnegative scores this is the first lane whose prefix sum
strictly exceeds `t`, clamped to the last lane. -/
theorem rouletteIdx_eq_first_strict (f : Nat → ℚ) (t : ℚ) (j : Nat) (hf : ∀ i, 0 ≤ f i)
    (hj : j < WARP_SIZE) (hgt : t < warp_scan f j) (hle : ∀ k, k < j → warp_scan f k ≤ t) :
    rouletteIdx f t = j := by
  unfold rouletteIdx
  have hcount : (List.range WARP_SIZE).countP (fun i => decide (warp_scan f i ≤ t)) = j := by
    apply countP_range_downward _ _ _ (le_of_lt hj)
    · intro k hk
      simpa using hle k hk
    · intro k hk1 hk2
      have : warp_scan f j ≤ warp_scan f k := warp_scan_mono f hf j k hk1
      simp only [decide_eq_false_iff_not, not_le]
      linarith
  rw [hcount]
  have : j ≤ WARP_SIZE - 1 := by unfold WARP_SIZE at hj ⊢; omega
  omega

/-- When every prefix sum is `≤ t` the roulette selection clamps to the last
lane. -/
theorem rouletteIdx_clamp (f : Nat → ℚ) (t : ℚ)
    (hall : ∀ k, k < WARP_SIZE → warp_scan f k ≤ t) :
    rouletteIdx f t = WARP_SIZE - 1 := by
  unfold rouletteIdx
  have hcount : (List.range WARP_SIZE).countP (fun i => decide (warp_scan f i ≤ t))
      = WARP_SIZE := by
    rw [← List.length_range WARP_SIZE]
    apply List.countP_eq_length.2
    intro a ha
    simpa using hall a (List.mem_range.1 ha)
  rw [hcount]
  omega

/-! ## Lemmas about the fallback scans -/

theorem scanStep_foldl_inv (g : Nat → ℚ) (Q : Nat → Prop) :
    ∀ (l : List Nat) (b0 : Nat × ℚ), 0 ≤ b0.2 → (0 < b0.2 → Q b0.1) →
      (∀ i ∈ l, 0 < g i → Q i) →
      0 ≤ (l.foldl (scanStep g) b0).2 ∧
        (0 < (l.foldl (scanStep g) b0).2 → Q (l.foldl (scanStep g) b0).1) := by
  intro l
  induction l with
  | nil => intro b0 h1 h2 _; exact ⟨h1, h2⟩
  | cons i l ih =>
    intro b0 h1 h2 hg
    simp only [List.foldl_cons]
    apply ih
    · exact le_trans h1 (by simp [scanStep, le_max_left])
    · intro hpos
      unfold scanStep at hpos ⊢
      by_cases hlt : b0.2 < g i
      · simp only [hlt, if_true]
        apply hg i (List.mem_cons_self i l)
        have : max b0.2 (g i) = g i := max_eq_right (le_of_lt hlt)
        simpa [this] using hpos
      · simp only [hlt, if_false]
        apply h2
        have : max b0.2 (g i) = b0.2 := max_eq_left (not_lt.1 hlt)
        simpa [this] using hpos
    · exact fun x hx => hg x (List.mem_cons_of_mem i hx)

theorem scanStep_foldl_le (g : Nat → ℚ) :
    ∀ (l : List Nat) (b0 : Nat × ℚ), b0.2 ≤ (l.foldl (scanStep g) b0).2 := by
  intro l
  induction l with
  | nil => intro b0; exact le_refl _
  | cons i l ih =>
    intro b0
    simp only [List.foldl_cons]
    exact le_trans (by simp [scanStep, le_max_left]) (ih (scanStep g b0 i))

theorem scanStep_foldl_ge (g : Nat → ℚ) :
    ∀ (l : List Nat) (b0 : Nat × ℚ) (j : Nat), j ∈ l →
      g j ≤ (l.foldl (scanStep g) b0).2 := by
  intro l
  induction l with
  | nil => intro b0 j hj; simp at hj
  | cons i l ih =>
    intro b0 j hj
    simp only [List.foldl_cons]
    rcases List.mem_cons.1 hj with h | h
    · subst h
      exact le_trans (by simp [scanStep, le_max_right]) (scanStep_foldl_le g l _)
    · exact ih _ j h

/-- The "skip visited nodes" form of the fallback loop (monolithic kernel)
agrees with the "score 0" form used by the other kernels. -/
theorem skip_foldl_eq (g : Nat → ℚ) (skip : Nat → Bool) :
    ∀ (l : List Nat) (b0 : Nat × ℚ), 0 ≤ b0.2 →
      l.foldl (fun b i => if skip i then b else scanStep g b i) b0
        = l.foldl (scanStep (fun i => if skip i then 0 else g i)) b0 := by
  intro l
  induction l with
  | nil => intro b0 _; rfl
  | cons i l ih =>
    intro b0 h0
    simp only [List.foldl_cons]
    by_cases hs : skip i
    · have h1 : scanStep (fun i => if skip i then 0 else g i) b0 i = b0 := by
        unfold scanStep
        simp only [hs, if_true]
        rw [if_neg (not_lt.2 h0), max_eq_left h0]
      rw [if_pos hs, h1]
      exact ih b0 h0
    · have h1 : scanStep (fun i => if skip i then 0 else g i) b0 i = scanStep g b0 i := by
        simp [scanStep, hs]
      rw [if_neg hs, h1]
      exact ih _ (le_trans h0 (by simp [scanStep, le_max_left]))

theorem acsFallbackThread_eq (p : Problem) (pher : Nat → Nat → ℚ) (vis : List Nat)
    (curr tid : Nat) :
    acsFallbackThread p pher vis curr tid
      = ((List.range p.dimension).filter (fun i => i % 32 == tid)).foldl
          (scanStep (fun i => if is_node_visited vis i then 0
            else p.heuristic curr i * pher curr i)) (p.dimension, 0) :=
  skip_foldl_eq _ _ _ _ (le_refl 0)

theorem acsFallbackNext_sound (p : Problem) (pher : Nat → Nat → ℚ) (vis : List Nat)
    (curr : Nat)
    (hx : ∃ x, x < p.dimension ∧ is_node_visited vis x = false ∧
      0 < p.heuristic curr x * pher curr x) :
    acsFallbackNext p pher vis curr < p.dimension ∧
      is_node_visited vis (acsFallbackNext p pher vis curr) = false := by
  obtain ⟨x, hxd, hxv, hxp⟩ := hx
  have hgpos : ∀ tid : Nat, ∀ i ∈ (List.range p.dimension).filter (fun i => i % 32 == tid),
      (0:ℚ) < (if is_node_visited vis i then 0 else p.heuristic curr i * pher curr i) →
      i < p.dimension ∧ is_node_visited vis i = false := by
    intro tid i hi hp
    have hid : i < p.dimension := List.mem_range.1 (List.mem_filter.1 hi).1
    by_cases hv : is_node_visited vis i
    · rw [if_pos hv] at hp
      exact absurd hp (lt_irrefl 0)
    · exact ⟨hid, by simpa using hv⟩
  have hthread : ∀ tid, 0 < (acsFallbackThread p pher vis curr tid).2 →
      (acsFallbackThread p pher vis curr tid).1 < p.dimension ∧
      is_node_visited vis (acsFallbackThread p pher vis curr tid).1 = false := by
    intro tid hpos
    rw [acsFallbackThread_eq] at hpos ⊢
    exact (scanStep_foldl_inv _ (fun i => i < p.dimension ∧ is_node_visited vis i = false)
      _ _ (le_refl 0) (fun h => absurd h (lt_irrefl _)) (hgpos tid)).2 hpos
  have ht32 : x % 32 < WARP_SIZE := Nat.mod_lt x (by norm_num)
  have hxmem : x ∈ (List.range p.dimension).filter (fun i => i % 32 == x % 32) :=
    List.mem_filter.2 ⟨List.mem_range.2 hxd, by simp⟩
  have hgx : (0:ℚ) < (if is_node_visited vis x then 0
      else p.heuristic curr x * pher curr x) := by
    rw [if_neg (by simp [hxv])]
    exact hxp
  have hge : (if is_node_visited vis x then (0:ℚ)
      else p.heuristic curr x * pher curr x) ≤ (acsFallbackThread p pher vis curr (x % 32)).2 := by
    rw [acsFallbackThread_eq]
    exact scanStep_foldl_ge _ _ _ x hxmem
  have hw := le_argmaxLane (fun tid => (acsFallbackThread p pher vis curr tid).2)
    WARP_SIZE (x % 32) ht32
  have hkey : 0 < (acsFallbackThread p pher vis curr
      (argmaxLane (fun tid => (acsFallbackThread p pher vis curr tid).2) WARP_SIZE)).2 :=
    lt_of_lt_of_le (lt_of_lt_of_le hgx hge) hw
  exact hthread _ hkey

theorem nnScore_unvisited (p : Problem) (pher : Nat → Nat → ℚ) (vis : List Nat)
    (curr l : Nat) (h : 0 < nnScore p pher vis curr l) :
    is_node_visited vis (p.nn curr l) = false := by
  by_cases hv : is_node_visited vis (p.nn curr l)
  · exfalso
    have hz : nnScore p pher vis curr l = 0 := by simp [nnScore, hv]
    rw [hz] at h
    exact lt_irrefl 0 h
  · simpa using hv

theorem acsExploitNext_sound (p : Problem) (pher : Nat → Nat → ℚ) (vis : List Nat)
    (curr : Nat)
    (hnn : ∀ l, p.nn curr l < p.dimension)
    (hpos : ∀ v, v < p.dimension → is_node_visited vis v = false →
      0 < p.heuristic curr v * pher curr v)
    (hl : ∃ l, l < WARP_SIZE ∧ is_node_visited vis (p.nn curr l) = false) :
    acsExploitNext p pher vis curr < p.dimension ∧
      is_node_visited vis (acsExploitNext p pher vis curr) = false := by
  obtain ⟨l, hl32, hlv⟩ := hl
  have hscl : (0:ℚ) < nnScore p pher vis curr l := by
    have he : nnScore p pher vis curr l
        = p.heuristic curr (p.nn curr l) * pher curr (p.nn curr l) := by
      simp [nnScore, hlv]
    rw [he]
    exact hpos _ (hnn l) hlv
  have hsc : 0 < nnScore p pher vis curr (argmaxLane (nnScore p pher vis curr) WARP_SIZE) :=
    lt_of_lt_of_le hscl (le_argmaxLane _ WARP_SIZE l hl32)
  exact ⟨hnn _, nnScore_unvisited p pher vis curr _ hsc⟩

theorem acsSelectNext_sound (p : Problem) (pher : Nat → Nat → ℚ) (vis : List Nat)
    (curr : Nat) (q0 q r : ℚ)
    (hnn : ∀ l, p.nn curr l < p.dimension)
    (hpos : ∀ v, v < p.dimension → is_node_visited vis v = false →
      0 < p.heuristic curr v * pher curr v)
    (hex : ∃ x, x < p.dimension ∧ is_node_visited vis x = false) :
    acsSelectNext p pher vis curr q0 q r < p.dimension ∧
      is_node_visited vis (acsSelectNext p pher vis curr q0 q r) = false := by
  obtain ⟨x, hxd, hxv⟩ := hex
  have hfb := acsFallbackNext_sound p pher vis curr ⟨x, hxd, hxv, hpos x hxd hxv⟩
  simp only [acsSelectNext]
  by_cases ha : ((List.range WARP_SIZE).any fun l => !is_node_visited vis (p.nn curr l)) = true
  · rw [if_pos ha]
    by_cases hq : q < q0
    · rw [if_pos hq]
      obtain ⟨l, hlr, hlv⟩ := List.any_eq_true.1 ha
      have hE := acsExploitNext_sound p pher vis curr hnn hpos
        ⟨l, List.mem_range.1 hlr, by simpa using hlv⟩
      rw [if_neg (by simp [Nat.ne_of_lt hE.1])]
      exact hE
    · rw [if_neg hq]
      by_cases hv : is_node_visited vis
          (p.nn curr (rouletteIdx (nnScore p pher vis curr)
            (r * warp_scan (nnScore p pher vis curr) (WARP_SIZE - 1)))) = true
      · have heq : acsRouletteNext p pher vis curr r = p.dimension := by
          simp only [acsRouletteNext]
          rw [if_pos hv]
        rw [heq, if_pos (by simp)]
        exact hfb
      · have heq : acsRouletteNext p pher vis curr r
            = p.nn curr (rouletteIdx (nnScore p pher vis curr)
              (r * warp_scan (nnScore p pher vis curr) (WARP_SIZE - 1))) := by
          simp only [acsRouletteNext]
          rw [if_neg hv]
        rw [heq, if_neg (by simp [Nat.ne_of_lt (hnn _)])]
        exact ⟨hnn _, by simpa using hv⟩
  · rw [if_neg ha, if_pos (by simp)]
    exact hfb

/-- A nodup list of `n` naturals all below `n` is a permutation of
`range n`. -/
theorem perm_range_of_nodup (l : List Nat) (n : Nat) (h1 : l.Nodup)
    (h2 : ∀ x ∈ l, x < n) (h3 : l.length = n) : l.Perm (List.range n) := by
  apply List.Subperm.perm_of_length_le
  · exact List.subperm_of_subset h1 (fun x hx => List.mem_range.2 (h2 x hx))
  · simp [h3]

theorem getD_append_left {α : Type} (l l' : List α) (i : Nat) (d : α) (h : i < l.length) :
    (l ++ l').getD i d = l.getD i d := by
  simp [List.getD, List.getElem?_append, h]

theorem getD_append_last {α : Type} (l : List α) (a d : α) :
    (l ++ [a]).getD l.length d = a := by
  simp [List.getD, List.getElem?_concat_length]

theorem getD_mem {α : Type} (l : List α) (i : Nat) (d : α) (h : i < l.length) :
    l.getD i d ∈ l := by
  have h1 : l.getD i d = l[i] := by
    simp [List.getD, List.getElem?_eq_getElem, h]
  rw [h1]
  exact List.getElem_mem h

theorem exists_lt_not_mem (l : List Nat) (n : Nat) (hl : l.length < n) :
    ∃ x, x < n ∧ x ∉ l := by
  by_contra h
  push_neg at h
  have hsub : (List.range n) ⊆ l := fun x hx => h x (List.mem_range.1 hx)
  have hle := List.Subperm.length_le (List.subperm_of_subset (List.nodup_range n) hsub)
  rw [List.length_range] at hle
  omega

/-! ## The monolithic construction invariant -/

theorem acsInv_init (p : Problem) (phi initPher : ℚ) (m start : Nat)
    (hstart : start < p.dimension) (hdim : p.dimension ≤ 32 * MAX_VISITED_SIZE) :
    AcsInv p phi initPher m 0
      { visited := set_node_visited (List.replicate MAX_VISITED_SIZE 0) start
        route := [start], curr := start, events := [] } := by
  have hlen : (List.replicate MAX_VISITED_SIZE (0:Nat)).length = MAX_VISITED_SIZE :=
    List.length_replicate _ _
  refine ⟨?_, rfl, ?_, ?_, ?_, rfl, ?_, ?_⟩
  · rw [length_set_node_visited, hlen]
  · simp
  · intro x hx
    simp at hx
    subst hx
    exact hstart
  · intro x hx
    rw [is_node_visited_set_iff _ _ _ (by rw [hlen]; omega)]
    simp [is_node_visited_replicate_zero, eq_comm]
  · intro e he
    simp at he
  · intro t h1 h2
    omega

theorem acsInv_step (p : Problem) (q0 phi initPher : ℚ) (m : Nat)
    (pher : Nat → Nat → ℚ) (q r : ℚ) (n : Nat) (s : AntRun)
    (hdim : p.dimension ≤ 32 * MAX_VISITED_SIZE)
    (hhp : ∀ u v, 0 < p.heuristic u v * pher u v)
    (hnn : ∀ c l, p.nn c l < p.dimension)
    (hstep : n + 1 < p.dimension)
    (hinv : AcsInv p phi initPher m n s) :
    AcsInv p phi initPher m (n + 1)
      (acsStep p q0 phi initPher m pher q r (n + 1) s) := by
  obtain ⟨hvlen, hrlen, hnodup, hbound, hcoh, hcurr, hev, hex⟩ := hinv
  have hexx : ∃ x, x < p.dimension ∧ is_node_visited s.visited x = false := by
    obtain ⟨x, hx1, hx2⟩ := exists_lt_not_mem s.route p.dimension (by omega)
    refine ⟨x, hx1, ?_⟩
    by_cases hb : is_node_visited s.visited x
    · exact absurd ((hcoh x hx1).1 hb) hx2
    · simpa using hb
  have hsel := acsSelectNext_sound p pher s.visited s.curr q0 q r (hnn s.curr)
    (fun v hv hvv => hhp s.curr v) hexx
  set next := acsSelectNext p pher s.visited s.curr q0 q r with hnext
  have hnotmem : next ∉ s.route := by
    intro hmem
    have := (hcoh next hsel.1).2 hmem
    rw [hsel.2] at this
    exact Bool.false_ne_true this
  have hcap : next < 32 * s.visited.length := by rw [hvlen]; omega
  refine ⟨?_, ?_, ?_, ?_, ?_, ?_, ?_, ?_⟩
  · rw [acsStep]
    simpa [length_set_node_visited] using hvlen
  · simp [acsStep, hrlen]
  · simp only [acsStep]
    rw [List.nodup_append]
    exact ⟨hnodup, List.nodup_singleton next,
      fun a ha hb => by simp at hb; subst hb; exact hnotmem ha⟩
  · intro x hx
    simp only [acsStep, List.mem_append, List.mem_singleton] at hx
    rcases hx with hx | hx
    · exact hbound x hx
    · subst hx; exact hsel.1
  · intro x hx
    simp only [acsStep]
    rw [is_node_visited_set_iff _ _ _ hcap, List.mem_append, List.mem_singleton]
    rw [hcoh x hx]
    constructor
    · rintro (h | h)
      · exact Or.inr h.symm
      · exact Or.inl h
    · rintro (h | h)
      · exact Or.inr h
      · exact Or.inl h.symm
  · simp only [acsStep]
    rw [← hrlen, getD_append_last]
  · intro e he
    simp only [acsStep, List.mem_append] at he
    rcases he with he | he
    · obtain ⟨h1, h2, h3, h4, h5, h6, h7, h8⟩ := hev e he
      refine ⟨h1, h2, h3, h4, by omega, h6, ?_, ?_⟩
      · simp only [acsStep]
        rw [getD_append_left _ _ _ _ (by omega : e.step < s.route.length)]
        exact h7
      · simp only [acsStep]
        rw [getD_append_left _ _ _ _ (by omega : e.step - 1 < s.route.length)]
        exact h8
    · by_cases hm : (n + 1) % m = 0
      · rw [if_pos (by simpa using hm)] at he
        simp only [List.mem_singleton] at he
        subst he
        refine ⟨rfl, rfl, rfl, by show 1 ≤ n + 1; omega, by show n + 1 ≤ n + 1; omega, hm,
          ?_, ?_⟩
        · simp only [acsStep]
          show acsSelectNext p pher s.visited s.curr q0 q r
            = (s.route ++ [acsSelectNext p pher s.visited s.curr q0 q r]).getD (n + 1) 0
          rw [← hrlen, getD_append_last]
        · simp only [acsStep]
          show s.curr
            = (s.route ++ [acsSelectNext p pher s.visited s.curr q0 q r]).getD (n + 1 - 1) 0
          rw [(by omega : n + 1 - 1 = n),
            getD_append_left _ _ _ _ (by omega : n < s.route.length)]
          exact hcurr
      · rw [if_neg (by simpa using hm)] at he
        simp at he
  · intro t h1 h2 h3
    rcases Nat.le_succ_iff.mp h2 with h' | h'
    · obtain ⟨e, he, hes⟩ := hex t h1 h' h3
      exact ⟨e, by simp only [acsStep, List.mem_append]; exact Or.inl he, hes⟩
    · subst h'
      refine ⟨⟨n + 1, next, s.curr, phi, initPher, false⟩, ?_, rfl⟩
      simp only [acsStep, List.mem_append]
      right
      rw [if_pos (by simpa using h3)]
      simp

/-! ## Per-step strategy: selection soundness -/

theorem sepFallbackThread_eq (p : Problem) (pher : Nat → Nat → ℚ) (marked : List Bool)
    (curr tid : Nat) :
    sepFallbackThread p pher marked curr tid
      = ((List.range p.dimension).filter (fun i => i % 32 == tid)).foldl
          (scanStep (fun i => if marked.getD i false then 0
            else p.heuristic curr i * pher curr i)) (p.dimension, 0) := rfl

theorem sepFallbackNext_sound (p : Problem) (pher : Nat → Nat → ℚ) (marked : List Bool)
    (curr : Nat)
    (hx : ∃ x, x < p.dimension ∧ marked.getD x false = false ∧
      0 < p.heuristic curr x * pher curr x) :
    sepFallbackNext p pher marked curr < p.dimension ∧
      (sepFallbackNext p pher marked curr < marked.length →
        marked.getD (sepFallbackNext p pher marked curr) false = false) := by
  obtain ⟨x, hxd, hxv, hxp⟩ := hx
  have hthread : ∀ tid, 0 < (sepFallbackThread p pher marked curr tid).2 →
      (sepFallbackThread p pher marked curr tid).1 < p.dimension ∧
      marked.getD (sepFallbackThread p pher marked curr tid).1 false = false := by
    intro tid hpos
    rw [sepFallbackThread_eq] at hpos ⊢
    refine (scanStep_foldl_inv _
      (fun i => i < p.dimension ∧ marked.getD i false = false)
      _ _ (le_refl 0) (fun h => absurd h (lt_irrefl _)) ?_).2 hpos
    intro i hi hp
    have hid : i < p.dimension := List.mem_range.1 (List.mem_filter.1 hi).1
    by_cases hv : marked.getD i false
    · have hp' : (0:ℚ) < if marked.getD i false = true then 0
          else p.heuristic curr i * pher curr i := hp
      rw [if_pos hv] at hp'
      exact absurd hp' (lt_irrefl 0)
    · exact ⟨hid, Bool.eq_false_iff.2 hv⟩
  have ht32 : x % 32 < WARP_SIZE := Nat.mod_lt x (by norm_num)
  have hxmem : x ∈ (List.range p.dimension).filter (fun i => i % 32 == x % 32) :=
    List.mem_filter.2 ⟨List.mem_range.2 hxd, by simp⟩
  have hge : (if marked.getD x false then (0:ℚ)
      else p.heuristic curr x * pher curr x) ≤ (sepFallbackThread p pher marked curr (x % 32)).2 := by
    rw [sepFallbackThread_eq]
    exact scanStep_foldl_ge _ _ _ x hxmem
  rw [if_neg (by rw [hxv]; exact Bool.false_ne_true)] at hge
  have hw := le_argmaxLane (fun tid => (sepFallbackThread p pher marked curr tid).2)
    WARP_SIZE (x % 32) ht32
  have hkey := hthread _ (lt_of_lt_of_le (lt_of_lt_of_le hxp hge) hw)
  exact ⟨hkey.1, fun _ => hkey.2⟩

theorem sepNNScore_unvisited (p : Problem) (pher : Nat → Nat → ℚ) (marked : List Bool)
    (curr l : Nat) (h : 0 < sepNNScore p pher marked curr l) :
    marked.getD (p.nn curr l) false = false := by
  by_cases hv : marked.getD (p.nn curr l) false
  · exfalso
    have hz : sepNNScore p pher marked curr l = 0 := by
      simp only [sepNNScore]
      rw [if_pos hv]
    rw [hz] at h
    exact lt_irrefl 0 h
  · exact Bool.eq_false_iff.2 hv

theorem sepExploitNext_sound (p : Problem) (pher : Nat → Nat → ℚ) (marked : List Bool)
    (curr : Nat)
    (hnn : ∀ l, p.nn curr l < p.dimension)
    (hpos : ∀ v, v < p.dimension → marked.getD v false = false →
      0 < p.heuristic curr v * pher curr v)
    (hl : ∃ l, l < WARP_SIZE ∧ marked.getD (p.nn curr l) false = false) :
    sepExploitNext p pher marked curr < p.dimension ∧
      marked.getD (sepExploitNext p pher marked curr) false = false := by
  obtain ⟨l, hl32, hlv⟩ := hl
  have hscl : (0:ℚ) < sepNNScore p pher marked curr l := by
    have he : sepNNScore p pher marked curr l
        = p.heuristic curr (p.nn curr l) * pher curr (p.nn curr l) := by
      simp only [sepNNScore]
      rw [if_neg (by rw [hlv]; exact Bool.false_ne_true)]
    rw [he]
    exact hpos _ (hnn l) hlv
  have hsc : 0 < sepNNScore p pher marked curr
      (argmaxLane (sepNNScore p pher marked curr) WARP_SIZE) :=
    lt_of_lt_of_le hscl (le_argmaxLane _ WARP_SIZE l hl32)
  exact ⟨hnn _, sepNNScore_unvisited p pher marked curr _ hsc⟩

theorem sepSelectNext_sound (p : Problem) (pher : Nat → Nat → ℚ) (marked : List Bool)
    (curr : Nat) (q0 q r : ℚ)
    (hnn : ∀ l, p.nn curr l < p.dimension)
    (hpos : ∀ v, v < p.dimension → marked.getD v false = false →
      0 < p.heuristic curr v * pher curr v)
    (hex : ∃ x, x < p.dimension ∧ marked.getD x false = false) :
    sepSelectNext p pher marked curr q0 q r < p.dimension ∧
      marked.getD (sepSelectNext p pher marked curr q0 q r) false = false := by
  obtain ⟨x, hxd, hxv⟩ := hex
  have hfb := sepFallbackNext_sound p pher marked curr ⟨x, hxd, hxv, hpos x hxd hxv⟩
  have hfb2 : sepFallbackNext p pher marked curr < p.dimension ∧
      marked.getD (sepFallbackNext p pher marked curr) false = false := by
    refine ⟨hfb.1, ?_⟩
    rcases lt_or_le (sepFallbackNext p pher marked curr) marked.length with h | h
    · exact hfb.2 h
    · simp [List.getD, List.getElem?_eq_none (by simpa using h)]
  simp only [sepSelectNext]
  by_cases ha : ((List.range WARP_SIZE).any fun l => !marked.getD (p.nn curr l) false) = true
  · rw [if_pos ha]
    by_cases hq : q < q0
    · rw [if_pos hq]
      obtain ⟨l, hlr, hlv⟩ := List.any_eq_true.1 ha
      have hE := sepExploitNext_sound p pher marked curr hnn hpos
        ⟨l, List.mem_range.1 hlr, by simpa using hlv⟩
      rw [if_neg (by simp [Nat.ne_of_lt hE.1])]
      exact hE
    · rw [if_neg hq]
      by_cases hv : marked.getD
          (p.nn curr (rouletteIdx (sepNNScore p pher marked curr)
            (r * warp_scan (sepNNScore p pher marked curr) (WARP_SIZE - 1)))) false = true
      · have heq : sepRouletteNext p pher marked curr r = p.dimension := by
          simp only [sepRouletteNext]
          rw [if_pos hv]
        rw [heq, if_pos (by simp)]
        exact hfb2
      · have heq : sepRouletteNext p pher marked curr r
            = p.nn curr (rouletteIdx (sepNNScore p pher marked curr)
              (r * warp_scan (sepNNScore p pher marked curr) (WARP_SIZE - 1))) := by
          simp only [sepRouletteNext]
          rw [if_neg hv]
        rw [heq, if_neg (by simp [Nat.ne_of_lt (hnn _)])]
        exact ⟨hnn _, by simpa using hv⟩
  · rw [if_neg ha, if_pos (by simp)]
    exact hfb2

/-! ## The per-step construction invariant -/

theorem sepInv_init (p : Problem) (phi initPher : ℚ) (start : Nat)
    (hstart : start < p.dimension) :
    SepInv p phi initPher 0
      { marked := List.replicate p.dimension false
        route := [start], count := 1, events := [] } := by
  refine ⟨List.length_replicate _ _, rfl, rfl, ?_, ?_, ?_, ?_, ?_, ?_, ?_, ?_⟩
  · simp
  · intro x hx
    simp at hx
    subst hx
    exact hstart
  · intro x hx
    rw [getD_replicate] at hx
    exact absurd hx Bool.false_ne_true
  · intro x hx
    simp at hx
    subst hx
    right
    rfl
  · intro e he
    simp at he
  · intro t h1 h2
    omega
  · intro e he
    simp at he
  · rw [if_neg (by omega)]
    rfl

theorem sepInv_step (p : Problem) (q0 phi initPher : ℚ) (pher : Nat → Nat → ℚ) (q r : ℚ)
    (n : Nat) (s : SepRun)
    (hhp : ∀ u v, 0 < p.heuristic u v * pher u v)
    (hnn : ∀ c l, p.nn c l < p.dimension)
    (hstep : n + 1 < p.dimension)
    (hinv : SepInv p phi initPher n s) :
    SepInv p phi initPher (n + 1) (sepKernelCall p q0 phi initPher pher q r s) := by
  obtain ⟨hmlen, hrlen, hcount, hnodup, hbound, hA, hB, hev, hex, hclo, hcnt⟩ := hinv
  set pos := s.route.getD (s.count - 1) 0 with hpos
  set marked1 := s.marked.set pos true with hmarked1
  set next := sepSelectNext p pher marked1 pos q0 q r with hnext
  have hkc : sepKernelCall p q0 phi initPher pher q r s
      = { marked := marked1.set next true
          route := s.route ++ [next]
          count := s.count + 1
          events := s.events ++ [⟨s.count, pos, next, phi, initPher, false⟩] ++
            (if s.count + 1 == p.dimension then
              [⟨p.dimension, next, s.route.getD 0 0, phi, initPher, true⟩] else []) } := rfl
  have hpos_n : pos = s.route.getD n 0 := by rw [hpos, hcount, Nat.add_sub_cancel]
  have hposmem : pos ∈ s.route := by
    rw [hpos_n]
    exact getD_mem _ _ _ (by omega)
  have hposlt : pos < p.dimension := hbound _ hposmem
  have hfull : ∀ x, marked1.getD x false = true ↔ x ∈ s.route := by
    intro x
    by_cases hxe : x = pos
    · subst hxe
      constructor
      · intro _
        exact hposmem
      · intro _
        rw [hmarked1]
        exact getD_set_self _ _ _ _ (by omega)
    · rw [hmarked1, getD_set_ne _ _ _ _ _ (fun he => hxe he.symm)]
      constructor
      · intro hx
        exact hA x hx
      · intro hx
        rcases hB x hx with h | h
        · exact h
        · exfalso
          apply hxe
          rw [h, hpos_n]
  have hexx : ∃ x, x < p.dimension ∧ marked1.getD x false = false := by
    obtain ⟨x, hx1, hx2⟩ := exists_lt_not_mem s.route p.dimension (by omega)
    refine ⟨x, hx1, ?_⟩
    by_cases hb : marked1.getD x false
    · exact absurd ((hfull x).1 hb) hx2
    · exact Bool.eq_false_iff.2 hb
  have hsel := sepSelectNext_sound p pher marked1 pos q0 q r (hnn pos)
    (fun v hv hvv => hhp pos v) hexx
  have hnotmem : next ∉ s.route := by
    intro hmem
    have := (hfull next).2 hmem
    rw [hsel.2] at this
    exact Bool.false_ne_true this
  have hm1len : marked1.length = p.dimension := by
    rw [hmarked1, List.length_set, hmlen]
  have hnoc : ∀ e ∈ s.events, e.closing = true → False := by
    intro e he hc
    rw [if_neg (by omega : ¬(p.dimension ≤ n + 1 ∧ 2 ≤ p.dimension))] at hcnt
    have hnil := List.length_eq_zero.1 hcnt
    have : e ∈ s.events.filter (fun e => e.closing) := List.mem_filter.2 ⟨he, hc⟩
    rw [hnil] at this
    simp at this
  rw [hkc]
  refine ⟨?_, ?_, ?_, ?_, ?_, ?_, ?_, ?_, ?_, ?_, ?_⟩
  · rw [List.length_set, hm1len]
  · simp [hrlen]
  · show s.count + 1 = n + 1 + 1
    omega
  · rw [List.nodup_append]
    exact ⟨hnodup, List.nodup_singleton next,
      fun a ha hb => by simp at hb; subst hb; exact hnotmem ha⟩
  · intro x hx
    rcases List.mem_append.1 hx with hx | hx
    · exact hbound x hx
    · simp at hx
      subst hx
      exact hsel.1
  · intro x hx
    by_cases hxe : x = next
    · subst hxe
      exact List.mem_append_right _ (by simp)
    · rw [getD_set_ne _ _ _ _ _ (fun he => hxe he.symm)] at hx
      exact List.mem_append_left _ ((hfull x).1 hx)
  · intro x hx
    left
    by_cases hxe : x = next
    · subst hxe
      exact getD_set_self _ _ _ _ (by rw [hm1len]; exact hsel.1)
    · rw [getD_set_ne _ _ _ _ _ (fun he => hxe he.symm)]
      rcases List.mem_append.1 hx with hx | hx
      · exact (hfull x).2 hx
      · simp at hx
        exact absurd hx hxe
  · intro e he hcl
    rcases List.mem_append.1 he with he | he
    · rcases List.mem_append.1 he with he | he
      · obtain ⟨h2, h3, h4, h5, h6, h7⟩ := hev e he hcl
        refine ⟨h2, h3, h4, by omega, ?_, ?_⟩
        · rw [getD_append_left _ _ _ _ (by omega : e.step - 1 < s.route.length)]
          exact h6
        · rw [getD_append_left _ _ _ _ (by omega : e.step < s.route.length)]
          exact h7
      · simp only [List.mem_singleton] at he
        subst he
        refine ⟨rfl, rfl, by show 1 ≤ s.count; omega, by show s.count ≤ n + 1; omega, ?_, ?_⟩
        · show pos = ((s.route ++ [next]).getD (s.count - 1) 0)
          rw [hcount, (by omega : n + 1 - 1 = n),
            getD_append_left _ _ _ _ (by omega : n < s.route.length)]
          exact hpos_n
        · show next = ((s.route ++ [next]).getD s.count 0)
          rw [hcount, ← hrlen, getD_append_last]
    · by_cases hc : s.count + 1 == p.dimension
      · rw [if_pos hc] at he
        simp only [List.mem_singleton] at he
        subst he
        simp at hcl
      · rw [if_neg hc] at he
        simp at he
  · intro t h1 h2
    rcases Nat.le_succ_iff.mp h2 with h' | h'
    · obtain ⟨e, he, hes, hec⟩ := hex t h1 h'
      exact ⟨e, List.mem_append_left _ (List.mem_append_left _ he), hes, hec⟩
    · subst h'
      refine ⟨⟨s.count, pos, next, phi, initPher, false⟩, ?_, by show s.count = n + 1; omega,
        rfl⟩
      exact List.mem_append_left _ (List.mem_append_right _ (by simp))
  · intro e he hc
    rcases List.mem_append.1 he with he | he
    · rcases List.mem_append.1 he with he | he
      · exact absurd (hnoc e he hc) id
      · simp only [List.mem_singleton] at he
        subst he
        simp at hc
    · by_cases hcnd : s.count + 1 == p.dimension
      · rw [if_pos hcnd] at he
        simp only [List.mem_singleton] at he
        subst he
        have hd : p.dimension = n + 2 := by
          have hh : s.count + 1 = p.dimension := by simpa using hcnd
          omega
        refine ⟨rfl, rfl, rfl, ?_, ?_⟩
        · show next = (s.route ++ [next]).getD (p.dimension - 1) 0
          rw [hd, (by omega : n + 2 - 1 = n + 1), ← hrlen, getD_append_last]
        · show s.route.getD 0 0 = (s.route ++ [next]).getD 0 0
          rw [getD_append_left _ _ _ _ (by omega : 0 < s.route.length)]
      · rw [if_neg hcnd] at he
        simp at he
  · rw [List.filter_append, List.filter_append, List.length_append, List.length_append]
    have h1 : (s.events.filter (fun e => e.closing)).length = 0 := by
      rw [if_neg (by omega : ¬(p.dimension ≤ n + 1 ∧ 2 ≤ p.dimension))] at hcnt
      exact hcnt
    have h2 : (([⟨s.count, pos, next, phi, initPher, false⟩] :
        List PherUpdate).filter (fun e => e.closing)).length = 0 := by
      simp
    rw [h1, h2]
    by_cases hcnd : s.count + 1 == p.dimension
    · have hd : p.dimension = n + 2 := by
        have hh : s.count + 1 = p.dimension := by simpa using hcnd
        omega
      rw [if_pos hcnd, if_pos (by omega)]
      simp
    · have hd : s.count + 1 ≠ p.dimension := by simpa using hcnd
      rw [if_neg hcnd, if_neg (by omega : ¬(p.dimension ≤ n + 1 + 1 ∧ 2 ≤ p.dimension))]
      simp

theorem sepRunN_succ (p : Problem) (q0 phi initPher : ℚ) (pher : Nat → Nat → Nat → ℚ)
    (qd rd : Nat → ℚ) (start k : Nat) :
    sepRunN p q0 phi initPher pher qd rd start (k + 1)
      = sepKernelCall p q0 phi initPher (pher (k + 1)) (qd (k + 1)) (rd (k + 1))
          (sepRunN p q0 phi initPher pher qd rd start k) := by
  unfold sepRunN
  rw [List.range'_1_concat, List.foldl_append, Nat.add_comm 1 k]
  rfl

theorem sepInv_all (p : Problem) (q0 phi initPher : ℚ) (pher : Nat → Nat → Nat → ℚ)
    (qd rd : Nat → ℚ) (start : Nat)
    (hstart : start < p.dimension)
    (hhp : ∀ t u v, 0 < p.heuristic u v * pher t u v)
    (hnn : ∀ c l, p.nn c l < p.dimension) :
    ∀ n, n ≤ p.dimension - 1 →
      SepInv p phi initPher n (sepRunN p q0 phi initPher pher qd rd start n) := by
  intro n
  induction n with
  | zero =>
    intro _
    exact sepInv_init p phi initPher start hstart
  | succ k ih =>
    intro hk
    rw [sepRunN_succ]
    exact sepInv_step p q0 phi initPher (pher (k + 1)) (qd (k + 1)) (rd (k + 1)) k _
      (hhp (k + 1)) hnn (by omega) (ih (by omega))

/-! ## Selective-memory strategy: selection soundness -/

theorem spmClosestUnvisitedNN_sound (p : Problem) (vis : List Nat) (curr : Nat)
    (hnn : ∀ l, p.nn curr l < p.dimension)
    (hl : ∃ l, l < WARP_SIZE ∧ is_node_visited vis (p.nn curr l) = false) :
    spmClosestUnvisitedNN p vis curr < p.dimension ∧
      is_node_visited vis (spmClosestUnvisitedNN p vis curr) = false := by
  obtain ⟨l, hl32, hlv⟩ := hl
  have hsome : ((List.range WARP_SIZE).find?
      (fun l => !(is_node_visited vis (p.nn curr l)))).isSome := by
    rw [List.find?_isSome]
    exact ⟨l, List.mem_range.2 hl32, by simp [hlv]⟩
  obtain ⟨a, ha⟩ := Option.isSome_iff_exists.1 hsome
  have hpred := List.find?_some ha
  unfold spmClosestUnvisitedNN
  rw [ha]
  simp only [Bool.not_eq_true'] at hpred
  exact ⟨hnn a, hpred⟩

theorem spmSlotProduct_pos (p : Problem) (slId : Nat → Nat → Nat) (slVal : Nat → Nat → ℚ)
    (cap : Nat) (vis : List Nat) (curr tid : Nat)
    (h : 0 < spmSlotProduct p slId slVal cap vis curr tid) :
    tid < cap ∧ slId curr tid < p.dimension ∧
      is_node_visited vis (slId curr tid) = false := by
  simp only [spmSlotProduct] at h
  by_cases h1 : tid < cap
  · rw [if_pos h1] at h
    by_cases h2 : slId curr tid < p.dimension ∧ is_node_visited vis (slId curr tid) = false
    · exact ⟨h1, h2.1, h2.2⟩
    · rw [if_neg h2] at h
      exact absurd h (lt_irrefl 0)
  · rw [if_neg h1] at h
    exact absurd h (lt_irrefl 0)

theorem spmExploitNext_sound (p : Problem) (slId : Nat → Nat → Nat)
    (slVal : Nat → Nat → ℚ) (cap : Nat) (initPher : ℚ) (junk : Nat → Nat)
    (vis : List Nat) (curr : Nat)
    (hnn : ∀ l, p.nn curr l < p.dimension)
    (hheur : ∀ v, 0 < p.heuristic curr v)
    (hinit : 0 < initPher)
    (hl : ∃ l, l < WARP_SIZE ∧ is_node_visited vis (p.nn curr l) = false) :
    (0 < spmNNProduct p initPher vis curr ∨
      0 < spmMaxProduct p slId slVal cap vis curr) ∧
    spmExploitNext p slId slVal cap initPher junk vis curr < p.dimension ∧
    is_node_visited vis (spmExploitNext p slId slVal cap initPher junk vis curr) = false := by
  have hclose := spmClosestUnvisitedNN_sound p vis curr hnn hl
  have hnnp : 0 < spmNNProduct p initPher vis curr :=
    mul_pos hinit (hheur _)
  refine ⟨Or.inl hnnp, ?_⟩
  unfold spmExploitNext
  by_cases hc : spmNNProduct p initPher vis curr > spmMaxProduct p slId slVal cap vis curr
  · rw [if_pos hc]
    exact hclose
  · rw [if_neg hc]
    have hmax : 0 < spmMaxProduct p slId slVal cap vis curr :=
      lt_of_lt_of_le hnnp (not_lt.1 hc)
    unfold spmMaxProduct warp_reduce_arg_max_val at hmax
    obtain ⟨h1, h2, h3⟩ := spmSlotProduct_pos p slId slVal cap vis curr _ hmax
    unfold spmBestNode warp_reduce_arg_max
    rw [spmSlotNode, if_pos h1]
    exact ⟨h2, h3⟩

theorem spmFallbackThread_eq (p : Problem) (slId : Nat → Nat → Nat)
    (slVal : Nat → Nat → ℚ) (cap : Nat) (initPher : ℚ) (vis : List Nat)
    (curr tid junkT : Nat) :
    spmFallbackThread p slId slVal cap initPher vis curr tid junkT
      = spmSlotFold p slId slVal cap vis curr tid
          ((((List.range p.dimension).filter (fun i => i % 32 == tid)).foldl
              (scanStep (fun i => if is_node_visited vis i then 0 else p.heuristic curr i))
              (junkT, 0)).1,
            (((List.range p.dimension).filter (fun i => i % 32 == tid)).foldl
              (scanStep (fun i => if is_node_visited vis i then 0 else p.heuristic curr i))
              (junkT, 0)).2 * initPher) := rfl

theorem spmSlotFold_inv (p : Problem) (slId : Nat → Nat → Nat) (slVal : Nat → Nat → ℚ)
    (cap : Nat) (vis : List Nat) (curr tid : Nat) (b : Nat × ℚ)
    (hb : 0 < b.2 → b.1 < p.dimension ∧ is_node_visited vis b.1 = false)
    (hpos : 0 < (spmSlotFold p slId slVal cap vis curr tid b).2) :
    (spmSlotFold p slId slVal cap vis curr tid b).1 < p.dimension ∧
      is_node_visited vis (spmSlotFold p slId slVal cap vis curr tid b).1 = false := by
  simp only [spmSlotFold] at hpos ⊢
  by_cases h1 : tid < cap
  · rw [if_pos h1] at hpos ⊢
    by_cases h2 : slId curr tid < p.dimension ∧ is_node_visited vis (slId curr tid) = false
    · rw [if_pos h2] at hpos ⊢
      by_cases h3 : b.2 < slVal curr tid * p.heuristic curr (slId curr tid)
      · rw [if_pos h3]
        exact ⟨h2.1, h2.2⟩
      · rw [if_neg h3]
        have hpos' : 0 < max b.2 (slVal curr tid * p.heuristic curr (slId curr tid)) := hpos
        rw [max_eq_left (not_lt.1 h3)] at hpos'
        exact hb hpos'
    · rw [if_neg h2] at hpos ⊢
      exact hb hpos
  · rw [if_neg h1] at hpos ⊢
    exact hb hpos

theorem spmSlotFold_ge (p : Problem) (slId : Nat → Nat → Nat) (slVal : Nat → Nat → ℚ)
    (cap : Nat) (vis : List Nat) (curr tid : Nat) (b : Nat × ℚ) :
    b.2 ≤ (spmSlotFold p slId slVal cap vis curr tid b).2 := by
  simp only [spmSlotFold]
  by_cases h1 : tid < cap
  · rw [if_pos h1]
    by_cases h2 : slId curr tid < p.dimension ∧ is_node_visited vis (slId curr tid) = false
    · rw [if_pos h2]
      exact le_max_left _ _
    · rw [if_neg h2]
  · rw [if_neg h1]

theorem spmFallbackThread_inv (p : Problem) (slId : Nat → Nat → Nat)
    (slVal : Nat → Nat → ℚ) (cap : Nat) (initPher : ℚ) (vis : List Nat)
    (curr tid junkT : Nat) (hinit : 0 < initPher)
    (hpos : 0 < (spmFallbackThread p slId slVal cap initPher vis curr tid junkT).2) :
    (spmFallbackThread p slId slVal cap initPher vis curr tid junkT).1 < p.dimension ∧
      is_node_visited vis
        (spmFallbackThread p slId slVal cap initPher vis curr tid junkT).1 = false := by
  have hbase := scanStep_foldl_inv
    (fun i => if is_node_visited vis i then 0 else p.heuristic curr i)
    (fun i => i < p.dimension ∧ is_node_visited vis i = false)
    ((List.range p.dimension).filter (fun i => i % 32 == tid)) (junkT, 0)
    (le_refl 0) (fun h => absurd h (lt_irrefl _))
    (by
      intro i hi hp
      have hid : i < p.dimension := List.mem_range.1 (List.mem_filter.1 hi).1
      by_cases hv : is_node_visited vis i
      · simp [hv] at hp
      · exact ⟨hid, by simpa using hv⟩)
  rw [spmFallbackThread_eq] at hpos ⊢
  apply spmSlotFold_inv
  · intro h
    have h' : 0 < (((List.range p.dimension).filter (fun i => i % 32 == tid)).foldl
        (scanStep (fun i => if is_node_visited vis i then 0 else p.heuristic curr i))
        (junkT, 0)).2 * initPher := h
    exact hbase.2 (by nlinarith)
  · exact hpos

theorem spmFallbackThread_ge (p : Problem) (slId : Nat → Nat → Nat)
    (slVal : Nat → Nat → ℚ) (cap : Nat) (initPher : ℚ) (vis : List Nat)
    (curr x junkT : Nat) (hinit : 0 < initPher)
    (hxd : x < p.dimension) (hxv : is_node_visited vis x = false)
    (hheur : 0 < p.heuristic curr x) :
    0 < (spmFallbackThread p slId slVal cap initPher vis curr (x % 32) junkT).2 := by
  have hxmem : x ∈ (List.range p.dimension).filter (fun i => i % 32 == x % 32) :=
    List.mem_filter.2 ⟨List.mem_range.2 hxd, by simp⟩
  rw [spmFallbackThread_eq]
  refine lt_of_lt_of_le ?_ (spmSlotFold_ge p slId slVal cap vis curr (x % 32) _)
  apply mul_pos ?_ hinit
  apply lt_of_lt_of_le hheur
  have hge := scanStep_foldl_ge
    (fun i => if is_node_visited vis i then 0 else p.heuristic curr i)
    ((List.range p.dimension).filter (fun i => i % 32 == x % 32)) (junkT, 0) x hxmem
  simpa [hxv] using hge

theorem spmFallbackNext_sound (p : Problem) (slId : Nat → Nat → Nat)
    (slVal : Nat → Nat → ℚ) (cap : Nat) (initPher : ℚ) (junk : Nat → Nat)
    (vis : List Nat) (curr : Nat) (hinit : 0 < initPher)
    (hx : ∃ x, x < p.dimension ∧ is_node_visited vis x = false ∧ 0 < p.heuristic curr x) :
    spmFallbackNext p slId slVal cap initPher junk vis curr < p.dimension ∧
      is_node_visited vis (spmFallbackNext p slId slVal cap initPher junk vis curr)
        = false := by
  obtain ⟨x, hxd, hxv, hxh⟩ := hx
  have ht32 : x % 32 < WARP_SIZE := Nat.mod_lt x (by norm_num)
  have hthr := spmFallbackThread_ge p slId slVal cap initPher vis curr x (junk (x % 32))
    hinit hxd hxv hxh
  have hw := le_argmaxLane
    (fun tid => (spmFallbackThread p slId slVal cap initPher vis curr tid (junk tid)).2)
    WARP_SIZE (x % 32) ht32
  have hkey : 0 < (spmFallbackThread p slId slVal cap initPher vis curr
      (argmaxLane (fun tid =>
        (spmFallbackThread p slId slVal cap initPher vis curr tid (junk tid)).2) WARP_SIZE)
      (junk (argmaxLane (fun tid =>
        (spmFallbackThread p slId slVal cap initPher vis curr tid (junk tid)).2)
        WARP_SIZE))).2 :=
    lt_of_lt_of_le hthr hw
  exact spmFallbackThread_inv p slId slVal cap initPher vis curr _ _ hinit hkey

theorem spmSelectNext_sound (p : Problem) (slId : Nat → Nat → Nat)
    (slVal : Nat → Nat → ℚ) (cap : Nat) (dflt initPher : ℚ) (junk : Nat → Nat)
    (vis : List Nat) (curr : Nat) (q0 q r : ℚ)
    (hnn : ∀ l, p.nn curr l < p.dimension)
    (hheur : ∀ v, 0 < p.heuristic curr v)
    (hinit : 0 < initPher)
    (hex : ∃ x, x < p.dimension ∧ is_node_visited vis x = false) :
    spmSelectNext p slId slVal cap dflt initPher junk vis curr q0 q r < p.dimension ∧
      is_node_visited vis (spmSelectNext p slId slVal cap dflt initPher junk vis curr q0 q r)
        = false := by
  obtain ⟨x, hxd, hxv⟩ := hex
  have hfb := spmFallbackNext_sound p slId slVal cap initPher junk vis curr hinit
    ⟨x, hxd, hxv, hheur x⟩
  simp only [spmSelectNext]
  by_cases ha : ((List.range WARP_SIZE).any fun l => !is_node_visited vis (p.nn curr l)) = true
  · rw [if_pos ha]
    by_cases hq : q < q0
    · rw [if_pos hq]
      obtain ⟨l, hlr, hlv⟩ := List.any_eq_true.1 ha
      have hE := spmExploitNext_sound p slId slVal cap initPher junk vis curr hnn hheur hinit
        ⟨l, List.mem_range.1 hlr, by simpa using hlv⟩
      rw [if_neg (by simp [Nat.ne_of_lt hE.2.1])]
      exact hE.2
    · rw [if_neg hq]
      by_cases hv : is_node_visited vis
          (p.nn curr (rouletteIdx (spmNNScore p slId slVal cap dflt vis curr)
            (r * warp_scan (spmNNScore p slId slVal cap dflt vis curr) (WARP_SIZE - 1))))
          = true
      · have heq : spmRouletteNext p slId slVal cap dflt vis curr r = p.dimension := by
          simp only [spmRouletteNext]
          rw [if_pos hv]
        rw [heq, if_pos (by simp)]
        exact hfb
      · have heq : spmRouletteNext p slId slVal cap dflt vis curr r
            = p.nn curr (rouletteIdx (spmNNScore p slId slVal cap dflt vis curr)
              (r * warp_scan (spmNNScore p slId slVal cap dflt vis curr) (WARP_SIZE - 1))) := by
          simp only [spmRouletteNext]
          rw [if_neg hv]
        rw [heq, if_neg (by simp [Nat.ne_of_lt (hnn _)])]
        exact ⟨hnn _, by simpa using hv⟩
  · rw [if_neg ha, if_pos (by simp)]
    exact hfb

theorem spmInv_step (p : Problem) (slId : Nat → Nat → Nat) (slVal : Nat → Nat → ℚ)
    (cap : Nat) (q0 phi dflt : ℚ) (m : Nat) (junk : Nat → Nat) (q r : ℚ)
    (n : Nat) (s : AntRun)
    (hdim : p.dimension ≤ 32 * MAX_VISITED_SIZE)
    (hheur : ∀ u v, 0 < p.heuristic u v)
    (hinit : 0 < dflt)
    (hnn : ∀ c l, p.nn c l < p.dimension)
    (hstep : n + 1 < p.dimension)
    (hinv : AcsInv p phi dflt m n s) :
    AcsInv p phi dflt m (n + 1)
      (spmStep p slId slVal cap q0 phi dflt m junk q r (n + 1) s) := by
  obtain ⟨hvlen, hrlen, hnodup, hbound, hcoh, hcurr, hev, hex⟩ := hinv
  have hexx : ∃ x, x < p.dimension ∧ is_node_visited s.visited x = false := by
    obtain ⟨x, hx1, hx2⟩ := exists_lt_not_mem s.route p.dimension (by omega)
    refine ⟨x, hx1, ?_⟩
    by_cases hb : is_node_visited s.visited x
    · exact absurd ((hcoh x hx1).1 hb) hx2
    · simpa using hb
  have hsel := spmSelectNext_sound p slId slVal cap dflt dflt junk s.visited s.curr q0 q r
    (hnn s.curr) (hheur s.curr) hinit hexx
  set next := spmSelectNext p slId slVal cap dflt dflt junk s.visited s.curr q0 q r with hnext
  have hnotmem : next ∉ s.route := by
    intro hmem
    have := (hcoh next hsel.1).2 hmem
    rw [hsel.2] at this
    exact Bool.false_ne_true this
  have hcap : next < 32 * s.visited.length := by rw [hvlen]; omega
  refine ⟨?_, ?_, ?_, ?_, ?_, ?_, ?_, ?_⟩
  · rw [spmStep]
    simpa [length_set_node_visited] using hvlen
  · simp [spmStep, hrlen]
  · simp only [spmStep]
    rw [List.nodup_append]
    exact ⟨hnodup, List.nodup_singleton next,
      fun a ha hb => by simp at hb; subst hb; exact hnotmem ha⟩
  · intro x hx
    simp only [spmStep, List.mem_append, List.mem_singleton] at hx
    rcases hx with hx | hx
    · exact hbound x hx
    · subst hx; exact hsel.1
  · intro x hx
    simp only [spmStep]
    rw [is_node_visited_set_iff _ _ _ hcap, List.mem_append, List.mem_singleton]
    rw [hcoh x hx]
    constructor
    · rintro (h | h)
      · exact Or.inr h.symm
      · exact Or.inl h
    · rintro (h | h)
      · exact Or.inr h
      · exact Or.inl h.symm
  · simp only [spmStep]
    rw [← hrlen, getD_append_last]
  · intro e he
    simp only [spmStep, List.mem_append] at he
    rcases he with he | he
    · obtain ⟨h1, h2, h3, h4, h5, h6, h7, h8⟩ := hev e he
      refine ⟨h1, h2, h3, h4, by omega, h6, ?_, ?_⟩
      · simp only [spmStep]
        rw [getD_append_left _ _ _ _ (by omega : e.step < s.route.length)]
        exact h7
      · simp only [spmStep]
        rw [getD_append_left _ _ _ _ (by omega : e.step - 1 < s.route.length)]
        exact h8
    · by_cases hm : (n + 1) % m = 0
      · rw [if_pos (by simpa using hm)] at he
        simp only [List.mem_singleton] at he
        subst he
        refine ⟨rfl, rfl, rfl, by show 1 ≤ n + 1; omega, by show n + 1 ≤ n + 1; omega, hm,
          ?_, ?_⟩
        · simp only [spmStep]
          show spmSelectNext p slId slVal cap dflt dflt junk s.visited s.curr q0 q r
            = (s.route ++ [spmSelectNext p slId slVal cap dflt dflt junk s.visited s.curr
              q0 q r]).getD (n + 1) 0
          rw [← hrlen, getD_append_last]
        · simp only [spmStep]
          show s.curr = (s.route ++ [spmSelectNext p slId slVal cap dflt dflt junk s.visited
            s.curr q0 q r]).getD (n + 1 - 1) 0
          rw [(by omega : n + 1 - 1 = n),
            getD_append_left _ _ _ _ (by omega : n < s.route.length)]
          exact hcurr
      · rw [if_neg (by simpa using hm)] at he
        simp at he
  · intro t h1 h2 h3
    rcases Nat.le_succ_iff.mp h2 with h' | h'
    · obtain ⟨e, he, hes⟩ := hex t h1 h' h3
      exact ⟨e, by simp only [spmStep, List.mem_append]; exact Or.inl he, hes⟩
    · subst h'
      refine ⟨⟨n + 1, next, s.curr, phi, dflt, false⟩, ?_, rfl⟩
      simp only [spmStep, List.mem_append]
      right
      rw [if_pos (by simpa using h3)]
      simp

theorem spmConstructN_succ (p : Problem) (slId : Nat → Nat → Nat → Nat)
    (slVal : Nat → Nat → Nat → ℚ) (cap : Nat) (q0 phi dflt : ℚ) (m : Nat)
    (junk : Nat → Nat → Nat) (qd rd : Nat → ℚ) (start k : Nat) :
    spmConstructN p slId slVal cap q0 phi dflt m junk qd rd start (k + 1)
      = spmStep p (slId (k + 1)) (slVal (k + 1)) cap q0 phi dflt m (junk (k + 1))
          (qd (k + 1)) (rd (k + 1)) (k + 1)
          (spmConstructN p slId slVal cap q0 phi dflt m junk qd rd start k) := by
  unfold spmConstructN
  rw [List.range'_1_concat, List.foldl_append, Nat.add_comm 1 k]
  rfl

theorem spmInv_all (p : Problem) (slId : Nat → Nat → Nat → Nat)
    (slVal : Nat → Nat → Nat → ℚ) (cap : Nat) (q0 phi dflt : ℚ) (m : Nat)
    (junk : Nat → Nat → Nat) (qd rd : Nat → ℚ) (start : Nat)
    (hdim : p.dimension ≤ 32 * MAX_VISITED_SIZE)
    (hstart : start < p.dimension)
    (hheur : ∀ u v, 0 < p.heuristic u v)
    (hinit : 0 < dflt)
    (hnn : ∀ c l, p.nn c l < p.dimension) :
    ∀ n, n ≤ p.dimension - 1 →
      AcsInv p phi dflt m n
        (spmConstructN p slId slVal cap q0 phi dflt m junk qd rd start n) := by
  intro n
  induction n with
  | zero =>
    intro _
    exact acsInv_init p phi dflt m start hstart hdim
  | succ k ih =>
    intro hk
    rw [spmConstructN_succ]
    exact spmInv_step p (slId (k + 1)) (slVal (k + 1)) cap q0 phi dflt m (junk (k + 1))
      (qd (k + 1)) (rd (k + 1)) k _ hdim hheur hinit hnn (by omega) (ih (by omega))

theorem acsConstructN_succ (p : Problem) (q0 phi initPher : ℚ) (m : Nat)
    (pher : Nat → Nat → Nat → ℚ) (qd rd : Nat → ℚ) (start k : Nat) :
    acsConstructN p q0 phi initPher m pher qd rd start (k + 1)
      = acsStep p q0 phi initPher m (pher (k + 1)) (qd (k + 1)) (rd (k + 1)) (k + 1)
          (acsConstructN p q0 phi initPher m pher qd rd start k) := by
  unfold acsConstructN
  rw [List.range'_1_concat, List.foldl_append, Nat.add_comm 1 k]
  rfl

theorem acsInv_all (p : Problem) (q0 phi initPher : ℚ) (m : Nat)
    (pher : Nat → Nat → Nat → ℚ) (qd rd : Nat → ℚ) (start : Nat)
    (hdim : p.dimension ≤ 32 * MAX_VISITED_SIZE)
    (hstart : start < p.dimension)
    (hhp : ∀ t u v, 0 < p.heuristic u v * pher t u v)
    (hnn : ∀ c l, p.nn c l < p.dimension) :
    ∀ n, n ≤ p.dimension - 1 →
      AcsInv p phi initPher m n (acsConstructN p q0 phi initPher m pher qd rd start n) := by
  intro n
  induction n with
  | zero =>
    intro _
    exact acsInv_init p phi initPher m start hstart hdim
  | succ k ih =>
    intro hk
    rw [acsConstructN_succ]
    exact acsInv_step p q0 phi initPher m (pher (k + 1)) (qd (k + 1)) (rd (k + 1)) k _
      hdim (hhp (k + 1)) hnn (by omega) (ih (by omega))

/-! ## Claim C1 -/

/-- C1: in every construction strategy (monolithic `acs_calc_solution`,
selective-memory `acs_spm_calc_solution`, per-step `acs_select_next_node`),
for every ant — i.e. for every start node in `[0,N)`, every random stream,
and every positive pheromone/heuristic data with in-range neighbour lists,
on an instance within the visited-bitmask capacity — the completed route is
a permutation of `[0,N)`: every node occurs exactly once. -/
theorem C1_route_is_permutation
    (p : Problem) (q0 phi initPher dflt : ℚ) (m nw : Nat)
    (pher : Nat → Nat → Nat → ℚ) (qd rd : Nat → ℚ) (start : Nat)
    (slId : Nat → Nat → Nat → Nat) (slVal : Nat → Nat → Nat → ℚ) (cap : Nat)
    (junk : Nat → Nat → Nat)
    (hdim : p.dimension ≤ 32 * MAX_VISITED_SIZE)
    (hstart : start < p.dimension)
    (hheur : ∀ u v, 0 < p.heuristic u v)
    (hpher : ∀ t u v, 0 < pher t u v)
    (hdflt : 0 < dflt)
    (hnn : ∀ c l, p.nn c l < p.dimension) :
    ((acsKernel p q0 phi initPher m pher qd rd start nw).1.route).Perm
        (List.range p.dimension) ∧
      ((spmKernel p slId slVal cap q0 phi dflt m junk qd rd start).1.route).Perm
        (List.range p.dimension) ∧
      ((sepRun p q0 phi initPher pher qd rd start).route).Perm
        (List.range p.dimension) := by
  have hhp : ∀ t u v, 0 < p.heuristic u v * pher t u v :=
    fun t u v => mul_pos (hheur u v) (hpher t u v)
  refine ⟨?_, ?_, ?_⟩
  · have hinv := acsInv_all p q0 phi initPher m pher qd rd start hdim hstart hhp hnn
      (p.dimension - 1) (le_refl _)
    obtain ⟨_, hrlen, hnodup, hbound, _⟩ := hinv
    exact perm_range_of_nodup
      (acsConstructN p q0 phi initPher m pher qd rd start (p.dimension - 1)).route
      p.dimension hnodup hbound (by rw [hrlen]; omega)
  · have hinv := spmInv_all p slId slVal cap q0 phi dflt m junk qd rd start hdim hstart
      hheur hdflt hnn (p.dimension - 1) (le_refl _)
    obtain ⟨_, hrlen, hnodup, hbound, _⟩ := hinv
    exact perm_range_of_nodup
      (spmConstructN p slId slVal cap q0 phi dflt m junk qd rd start (p.dimension - 1)).route
      p.dimension hnodup hbound (by rw [hrlen]; omega)
  · have hinv := sepInv_all p q0 phi initPher pher qd rd start hstart hhp hnn
      (p.dimension - 1) (le_refl _)
    obtain ⟨_, hrlen, _, hnodup, hbound, _⟩ := hinv
    exact perm_range_of_nodup
      (sepRunN p q0 phi initPher pher qd rd start (p.dimension - 1)).route
      p.dimension hnodup hbound (by rw [hrlen]; omega)

/-- Witness for C1 at a concrete instance. -/
theorem C1_route_is_permutation_witness :
    ((acsKernel exProblem 1 (1/2) 1 1 (fun _ _ _ => 1) (fun _ => 0) (fun _ => 0) 0
        1).1.route).Perm (List.range 3) ∧
      ((spmKernel exProblem (fun _ _ s => s) (fun _ _ _ => 1) 8 1 (1/2) 1 1
        (fun _ _ => 0) (fun _ => 0) (fun _ => 0) 0).1.route).Perm (List.range 3) ∧
      ((sepRun exProblem 1 (1/2) 1 (fun _ _ _ => 1) (fun _ => 0) (fun _ => 0)
        0).route).Perm (List.range 3) :=
  C1_route_is_permutation exProblem 1 (1/2) 1 1 1 1 (fun _ _ _ => 1) (fun _ => 0)
    (fun _ => 0) 0 (fun _ _ s => s) (fun _ _ _ => 1) 8 (fun _ _ => 0)
    (by norm_num [exProblem, MAX_VISITED_SIZE])
    (by norm_num [exProblem])
    (fun _ _ => one_pos)
    (fun _ _ _ => one_pos)
    one_pos
    (fun _ l => by
      show l % 3 < 3
      exact Nat.mod_lt l (by norm_num))

/-! ## Claim C4 -/

/-- C4 counterexample: with candidate scores `1,1,0,...,0` and draw `t = 1`,
the spec's "first prefix sum ≥ draw" rule selects index 0 but the code
(`min(31, popc(ballot(S_i ≤ t)))`) selects index 1: at an exact tie the code
skips the candidate. -/
theorem C4_counterexample :
    rouletteIdx (fun i => if i < 2 then (1:ℚ) else 0) 1 = 1 ∧
      specRouletteIdx (fun i => if i < 2 then (1:ℚ) else 0) 1 = 0 := by
  have hs0 : warp_scan (fun i => if i < 2 then (1:ℚ) else 0) 0 = 1 := by
    have h1 : List.range 1 = [0] := rfl
    norm_num [warp_scan, h1]
  have hs1 : warp_scan (fun i => if i < 2 then (1:ℚ) else 0) 1 = 2 := by
    rw [warp_scan_succ, hs0]
    norm_num
  constructor
  · apply rouletteIdx_eq_first_strict (fun i => if i < 2 then (1:ℚ) else 0) 1 1
      (fun i => by by_cases h : i < 2 <;> simp [h]) (by norm_num [WARP_SIZE])
    · rw [hs1]
      norm_num
    · intro k hk
      have : k = 0 := by omega
      subst this
      rw [hs0]
  · unfold specRouletteIdx
    rw [show WARP_SIZE = 31 + 1 from rfl, List.range_succ_eq_map,
      List.find?_cons_of_pos _ (by rw [decide_eq_true_eq, hs0])]
    rfl

/-- C4 (amended): with nonnegative scores the roulette branch selects the
first index whose inclusive prefix sum is strictly greater than the scaled
draw, clamped to the last lane (index `W-1`) when every prefix sum is `≤`
the draw. -/
theorem C4_roulette_first_strict (f : Nat → ℚ) (t : ℚ) (j : Nat)
    (hf : ∀ i, 0 ≤ f i) (hj : j < WARP_SIZE) :
    ((t < warp_scan f j ∧ ∀ k, k < j → warp_scan f k ≤ t) → rouletteIdx f t = j) ∧
      ((∀ k, k < WARP_SIZE → warp_scan f k ≤ t) → rouletteIdx f t = WARP_SIZE - 1) := by
  constructor
  · rintro ⟨h1, h2⟩
    exact rouletteIdx_eq_first_strict f t j hf hj h1 h2
  · intro h
    exact rouletteIdx_clamp f t h

/-- Witness for C4 at concrete scores. -/
theorem C4_roulette_first_strict_witness :
    ((1 < warp_scan (fun i => if i < 2 then (1:ℚ) else 0) 1 ∧
        ∀ k, k < 1 → warp_scan (fun i => if i < 2 then (1:ℚ) else 0) k ≤ 1) →
      rouletteIdx (fun i => if i < 2 then (1:ℚ) else 0) 1 = 1) ∧
      ((∀ k, k < WARP_SIZE → warp_scan (fun i => if i < 2 then (1:ℚ) else 0) k ≤ 1) →
        rouletteIdx (fun i => if i < 2 then (1:ℚ) else 0) 1 = WARP_SIZE - 1) :=
  C4_roulette_first_strict (fun i => if i < 2 then (1:ℚ) else 0) 1 1
    (fun i => by by_cases h : i < 2 <;> simp [h])
    (by norm_num [WARP_SIZE])

/-! ## Claim C9 -/

/-- C9: the pheromone update rule `new = (1-decay)*old + decay*deposit`
leaves the value unchanged at `decay = 0` and replaces it by the deposit at
`decay = 1`, for every old value and deposit. -/
theorem C9_update_decay_extremes (old deposit : ℚ) :
    pherUpdateVal 0 old deposit = old ∧ pherUpdateVal 1 old deposit = deposit := by
  unfold pherUpdateVal
  constructor <;> ring

/-! ## Claim C10 -/

theorem argmin_foldl_spec (f : Nat → ℚ) (W : Nat) (hW : 0 < W) :
    ((List.range W).foldl (fun b i => if f i < f b then i else b) 0) < W ∧
      (∀ j, j < W → f ((List.range W).foldl (fun b i => if f i < f b then i else b) 0) ≤ f j) ∧
      (∀ j, j < ((List.range W).foldl (fun b i => if f i < f b then i else b) 0) →
        f ((List.range W).foldl (fun b i => if f i < f b then i else b) 0) < f j) := by
  induction W with
  | zero => omega
  | succ n ih =>
    have hstep : (List.range (n + 1)).foldl (fun b i => if f i < f b then i else b) 0
        = if f n < f ((List.range n).foldl (fun b i => if f i < f b then i else b) 0) then n
          else (List.range n).foldl (fun b i => if f i < f b then i else b) 0 := by
      rw [List.range_succ, List.foldl_append]
      rfl
    rcases Nat.eq_zero_or_pos n with hn | hn
    · subst hn
      rw [hstep]
      simp only [List.range_zero, List.foldl_nil]
      rw [if_neg (lt_irrefl _)]
      refine ⟨Nat.zero_lt_one, ?_, ?_⟩
      · intro j hj
        have : j = 0 := by omega
        subst this
        exact le_refl _
      · intro j hj
        omega
    · obtain ⟨ihb, ihle, ihfirst⟩ := ih hn
      rw [hstep]
      by_cases hc : f n < f ((List.range n).foldl (fun b i => if f i < f b then i else b) 0)
      · rw [if_pos hc]
        refine ⟨Nat.lt_succ_self n, ?_, ?_⟩
        · intro j hj
          rcases Nat.lt_succ_iff_lt_or_eq.1 hj with hj' | hj'
          · exact le_trans (le_of_lt hc) (ihle j hj')
          · subst hj'
            exact le_refl _
        · intro j hj
          exact lt_of_lt_of_le hc (ihle j hj)
      · rw [if_neg hc]
        refine ⟨Nat.lt_succ_of_lt ihb, ?_, ihfirst⟩
        intro j hj
        rcases Nat.lt_succ_iff_lt_or_eq.1 hj with hj' | hj'
        · exact ihle j hj'
        · subst hj'
          exact not_lt.1 hc

/-- C10: the controller's best-ant scan (`best_index` replaced only under
strict `<`) returns the lowest index attaining the minimum ant value: the
value at `best_index` is `≤` every value, and every earlier index holds a
strictly larger value.  `bestIndexOf` is a function of the value array, so
the selection is deterministic. -/
theorem C10_best_index_first_min (values : List ℚ) (j : Nat)
    (hne : values ≠ []) (hj : j < values.length) :
    bestIndexOf values < values.length ∧
      values.getD (bestIndexOf values) 0 ≤ values.getD j 0 ∧
      (j < bestIndexOf values →
        values.getD j 0 > values.getD (bestIndexOf values) 0) := by
  have hW : 0 < values.length := List.length_pos.2 hne
  obtain ⟨h1, h2, h3⟩ := argmin_foldl_spec (fun i => values.getD i 0) values.length hW
  exact ⟨h1, h2 j hj, fun hjb => h3 j hjb⟩

/-- Witness for C10. -/
theorem C10_best_index_first_min_witness :
    bestIndexOf [(2:ℚ), 1, 1] < ([(2:ℚ), 1, 1]).length ∧
      ([(2:ℚ), 1, 1]).getD (bestIndexOf [(2:ℚ), 1, 1]) 0 ≤ ([(2:ℚ), 1, 1]).getD 0 0 ∧
      (0 < bestIndexOf [(2:ℚ), 1, 1] →
        ([(2:ℚ), 1, 1]).getD 0 0 > ([(2:ℚ), 1, 1]).getD (bestIndexOf [(2:ℚ), 1, 1]) 0) :=
  C10_best_index_first_min [(2:ℚ), 1, 1] 0 (by simp) (by simp)

/-! ## Claim C5 -/

theorem scanl_getD_zero (g : ℚ → List ℚ → ℚ) (c : ℚ) (l : List (List ℚ)) :
    (List.scanl g c l).getD 0 0 = c := by
  cases l <;> simp [List.scanl]

theorem scanl_getD_succ (g : ℚ → List ℚ → ℚ) (l : List (List ℚ)) (b : ℚ) (i : Nat)
    (hi : i < l.length) :
    (List.scanl g b l).getD (i + 1) 0
      = g ((List.scanl g b l).getD i 0) (l.getD i []) := by
  induction l generalizing b i with
  | nil => simp at hi
  | cons x xs ih =>
    rw [List.scanl_cons]
    cases i with
    | zero =>
      show (List.scanl g (g b x) xs).getD 0 0 = g b x
      exact scanl_getD_zero g (g b x) xs
    | succ k =>
      have hk : k < xs.length := by simpa using hi
      show (List.scanl g (g b x) xs).getD (k + 1) 0
        = g ((List.scanl g (g b x) xs).getD k 0) (xs.getD k [])
      exact ih (g b x) k hk

/-- C5: the controller replaces the recorded best at most once per
iteration and only under strict improvement — `controllerStep` never
increases the record, and whenever it changes it, it changes it to the
iteration's minimum ant value, which was strictly below the record — and
consequently the recorded best is non-increasing across iterations. -/
theorem C5_best_replacement_monotone (vs : List ℚ) (b : ℚ) (iters : List (List ℚ))
    (b0 : ℚ) (i : Nat) (hi : i + 1 < (bestHistory iters b0).length) :
    controllerStep vs b ≤ b ∧
      (controllerStep vs b ≠ b →
        vs.getD (bestIndexOf vs) 0 < b ∧
          controllerStep vs b = vs.getD (bestIndexOf vs) 0) ∧
      (bestHistory iters b0).getD (i + 1) 0 ≤ (bestHistory iters b0).getD i 0 := by
  have hstep : ∀ (vs' : List ℚ) (b' : ℚ), controllerStep vs' b' ≤ b' := by
    intro vs' b'
    unfold controllerStep
    split
    · rename_i h
      exact le_of_lt h
    · exact le_refl _
  refine ⟨hstep vs b, ?_, ?_⟩
  · intro hne
    unfold controllerStep at hne ⊢
    by_cases h : vs.getD (bestIndexOf vs) 0 < b
    · rw [if_pos h]
      exact ⟨h, rfl⟩
    · rw [if_neg h] at hne
      exact absurd rfl hne
  · have hlen : i < iters.length := by
      rw [bestHistory, List.length_scanl] at hi
      omega
    have := scanl_getD_succ (fun b vs => controllerStep vs b) iters b0 i hlen
    rw [bestHistory, this]
    exact hstep _ _

/-- Witness for C5. -/
theorem C5_best_replacement_monotone_witness :
    controllerStep [(2:ℚ)] 3 ≤ 3 ∧
      (controllerStep [(2:ℚ)] 3 ≠ 3 →
        ([(2:ℚ)]).getD (bestIndexOf [(2:ℚ)]) 0 < 3 ∧
          controllerStep [(2:ℚ)] 3 = ([(2:ℚ)]).getD (bestIndexOf [(2:ℚ)]) 0) ∧
      (bestHistory [[(2:ℚ)]] 3).getD (0 + 1) 0 ≤ (bestHistory [[(2:ℚ)]] 3).getD 0 0 :=
  C5_best_replacement_monotone [(2:ℚ)] 3 [[(2:ℚ)]] 3 0
    (by simp [bestHistory])

/-! ## Claim C6 -/

theorem gpuEdgeWrite_foldl_untouched (dim : Nat) (rho delta : ℚ) (route : List Nat) :
    ∀ (l : List Nat) (mat : Nat → ℚ) (k : Nat),
      (∀ i ∈ l, k ≠ route.getD i 0 * dim + route.getD ((i + 1) % dim) 0 ∧
        k ≠ route.getD ((i + 1) % dim) 0 * dim + route.getD i 0) →
      (l.foldl (gpuEdgeWrite dim rho delta route) mat) k = mat k := by
  intro l
  induction l with
  | nil =>
    intro mat k _
    rfl
  | cons i l ih =>
    intro mat k h
    simp only [List.foldl_cons]
    rw [ih _ k (fun j hj => h j (List.mem_cons_of_mem i hj))]
    have hi := h i (List.mem_cons_self i l)
    simp only [gpuEdgeWrite]
    rw [if_neg (not_or.2 hi)]

theorem cell_inj (dim a b c d : Nat) (hb : b < dim) (hd : d < dim)
    (h : a * dim + b = c * dim + d) : a = c ∧ b = d := by
  rcases Nat.lt_trichotomy a c with hlt | heq | hgt
  · exfalso
    have h1 : (a + 1) * dim ≤ c * dim := Nat.mul_le_mul_right dim (Nat.succ_le_of_lt hlt)
    have h2 : (a + 1) * dim = a * dim + dim := Nat.succ_mul a dim
    omega
  · subst heq
    omega
  · exfalso
    have h1 : (c + 1) * dim ≤ a * dim := Nat.mul_le_mul_right dim (Nat.succ_le_of_lt hgt)
    have h2 : (c + 1) * dim = c * dim + dim := Nat.succ_mul c dim
    omega

theorem route_getD_inj (route : List Nat) (dim : Nat) (hnd : route.Nodup)
    (hlen : route.length = dim) (i j : Nat) (hi : i < dim) (hj : j < dim)
    (h : route.getD i 0 = route.getD j 0) : i = j := by
  have hi' : i < route.length := by omega
  have hj' : j < route.length := by omega
  have hgi : route.getD i 0 = route[i] := by
    simp [List.getD, List.getElem?_eq_getElem, hi']
  have hgj : route.getD j 0 = route[j] := by
    simp [List.getD, List.getElem?_eq_getElem, hj']
  rw [hgi, hgj] at h
  exact (List.Nodup.getElem_inj_iff hnd).mp h

theorem route_cross_impossible (route : List Nat) (dim : Nat) (hnd : route.Nodup)
    (hlen : route.length = dim) (hdim : 3 ≤ dim) (i j : Nat) (hi : i < dim) (hj : j < dim)
    (h1 : route.getD i 0 = route.getD ((j + 1) % dim) 0)
    (h2 : route.getD ((i + 1) % dim) 0 = route.getD j 0) : False := by
  have hmi : (i + 1) % dim < dim := Nat.mod_lt _ (by omega)
  have hmj : (j + 1) % dim < dim := Nat.mod_lt _ (by omega)
  have e1 : i = (j + 1) % dim := route_getD_inj route dim hnd hlen _ _ hi hmj h1
  have e2 : (i + 1) % dim = j := route_getD_inj route dim hnd hlen _ _ hmi hj h2
  have e3 : i = (i + 2) % dim := by
    conv_lhs => rw [e1]
    rw [← e2, Nat.mod_add_mod]
  rcases lt_or_le (i + 2) dim with hcase | hcase
  · rw [Nat.mod_eq_of_lt hcase] at e3
    omega
  · rw [Nat.mod_eq_sub_mod hcase, Nat.mod_eq_of_lt (by omega : i + 2 - dim < dim)] at e3
    omega

theorem route_edge_cells_disjoint (route : List Nat) (dim : Nat)
    (hlen : route.length = dim) (hnd : route.Nodup) (hb : ∀ x ∈ route, x < dim)
    (hdim : 3 ≤ dim)
    (i j : Nat) (hi : i < dim) (hj : j < dim) (hne : i ≠ j) :
    route.getD i 0 * dim + route.getD ((i + 1) % dim) 0
        ≠ route.getD j 0 * dim + route.getD ((j + 1) % dim) 0 ∧
      route.getD i 0 * dim + route.getD ((i + 1) % dim) 0
        ≠ route.getD ((j + 1) % dim) 0 * dim + route.getD j 0 ∧
      route.getD ((i + 1) % dim) 0 * dim + route.getD i 0
        ≠ route.getD j 0 * dim + route.getD ((j + 1) % dim) 0 ∧
      route.getD ((i + 1) % dim) 0 * dim + route.getD i 0
        ≠ route.getD ((j + 1) % dim) 0 * dim + route.getD j 0 := by
  have hbound : ∀ a, a < dim → route.getD a 0 < dim := by
    intro a ha
    exact hb _ (getD_mem route a 0 (by omega))
  have hmi : (i + 1) % dim < dim := Nat.mod_lt _ (by omega)
  have hmj : (j + 1) % dim < dim := Nat.mod_lt _ (by omega)
  refine ⟨?_, ?_, ?_, ?_⟩
  · intro h
    obtain ⟨e1, e2⟩ := cell_inj dim _ _ _ _ (hbound _ hmi) (hbound _ hmj) h
    exact hne (route_getD_inj route dim hnd hlen i j hi hj e1)
  · intro h
    obtain ⟨e1, e2⟩ := cell_inj dim _ _ _ _ (hbound _ hmi) (hbound _ hj) h
    exact route_cross_impossible route dim hnd hlen hdim i j hi hj e1 e2
  · intro h
    obtain ⟨e1, e2⟩ := cell_inj dim _ _ _ _ (hbound _ hi) (hbound _ hmj) h
    exact route_cross_impossible route dim hnd hlen hdim i j hi hj e2 e1
  · intro h
    obtain ⟨e1, e2⟩ := cell_inj dim _ _ _ _ (hbound _ hi) (hbound _ hj) h
    exact hne (route_getD_inj route dim hnd hlen i j hi hj e2)

/-- C6: the global pheromone update computes `delta = 1 / best_length` and,
for every edge `(best_route[i], best_route[(i+1) mod N])` of the best route
— the closing edge included — writes `(1-rho)*old + rho*delta` to both
matrix directions (for a symmetric starting matrix each direction is
updated from its own old value). -/
theorem C6_global_update (dim : Nat) (rho : ℚ) (mat : Nat → ℚ) (best_value : ℚ)
    (route : List Nat) (i : Nat)
    (hlen : route.length = dim) (hnd : route.Nodup)
    (hb : ∀ x ∈ route, x < dim) (hdim : 3 ≤ dim) (hi : i < dim)
    (hsym : ∀ u v, mat (u * dim + v) = mat (v * dim + u)) :
    acsGlobalPheromoneUpdate dim rho mat best_value route
        (route.getD i 0 * dim + route.getD ((i + 1) % dim) 0)
      = (1 - rho) * mat (route.getD i 0 * dim + route.getD ((i + 1) % dim) 0)
        + rho * (1 / best_value) ∧
      acsGlobalPheromoneUpdate dim rho mat best_value route
        (route.getD ((i + 1) % dim) 0 * dim + route.getD i 0)
      = (1 - rho) * mat (route.getD ((i + 1) % dim) 0 * dim + route.getD i 0)
        + rho * (1 / best_value) := by
  have hsplit1 : List.range' 0 i ++ List.range' i (dim - i) = List.range' 0 dim := by
    have := List.range'_append 0 i (dim - i) 1
    simp at this
    rw [this]
    congr 1
    omega
  have hsplit2 : List.range' i (dim - i) = i :: List.range' (i + 1) (dim - i - 1) := by
    rw [(by omega : dim - i = (dim - i - 1) + 1)]
    exact List.range'_succ i (dim - i - 1) 1
  have hunfold : acsGlobalPheromoneUpdate dim rho mat best_value route
      = (List.range' (i + 1) (dim - i - 1)).foldl (gpuEdgeWrite dim rho (1 / best_value) route)
          (gpuEdgeWrite dim rho (1 / best_value) route
            ((List.range' 0 i).foldl (gpuEdgeWrite dim rho (1 / best_value) route) mat) i) := by
    unfold acsGlobalPheromoneUpdate
    rw [List.range_eq_range' dim, ← hsplit1, hsplit2, List.foldl_append, List.foldl_cons]
  have hdisj := route_edge_cells_disjoint route dim hlen hnd hb hdim
  have hpre : ∀ k, (k = route.getD i 0 * dim + route.getD ((i + 1) % dim) 0 ∨
      k = route.getD ((i + 1) % dim) 0 * dim + route.getD i 0) →
      ((List.range' 0 i).foldl (gpuEdgeWrite dim rho (1 / best_value) route) mat) k = mat k := by
    intro k hk
    apply gpuEdgeWrite_foldl_untouched
    intro j hj
    have hjr := List.mem_range'_1.1 hj
    have hjd : j < dim := by omega
    have hjne : i ≠ j := by omega
    obtain ⟨d1, d2, d3, d4⟩ := hdisj i j hi hjd hjne
    rcases hk with hk | hk <;> subst hk
    · exact ⟨d1, d2⟩
    · exact ⟨d3, d4⟩
  have hpost : ∀ (M : Nat → ℚ) k,
      (k = route.getD i 0 * dim + route.getD ((i + 1) % dim) 0 ∨
        k = route.getD ((i + 1) % dim) 0 * dim + route.getD i 0) →
      ((List.range' (i + 1) (dim - i - 1)).foldl
        (gpuEdgeWrite dim rho (1 / best_value) route) M) k = M k := by
    intro M k hk
    apply gpuEdgeWrite_foldl_untouched
    intro j hj
    have hjr := List.mem_range'_1.1 hj
    have hjd : j < dim := by omega
    have hjne : i ≠ j := by omega
    obtain ⟨d1, d2, d3, d4⟩ := hdisj i j hi hjd hjne
    rcases hk with hk | hk <;> subst hk
    · exact ⟨d1, d2⟩
    · exact ⟨d3, d4⟩
  have hwrite1 : gpuEdgeWrite dim rho (1 / best_value) route
      ((List.range' 0 i).foldl (gpuEdgeWrite dim rho (1 / best_value) route) mat) i
      (route.getD i 0 * dim + route.getD ((i + 1) % dim) 0)
      = (1 - rho) * mat (route.getD i 0 * dim + route.getD ((i + 1) % dim) 0)
        + rho * (1 / best_value) := by
    simp only [gpuEdgeWrite, eq_self_iff_true, true_or, or_true, if_true]
    rw [hpre _ (Or.inl rfl)]
  have hwrite2 : gpuEdgeWrite dim rho (1 / best_value) route
      ((List.range' 0 i).foldl (gpuEdgeWrite dim rho (1 / best_value) route) mat) i
      (route.getD ((i + 1) % dim) 0 * dim + route.getD i 0)
      = (1 - rho) * mat (route.getD i 0 * dim + route.getD ((i + 1) % dim) 0)
        + rho * (1 / best_value) := by
    simp only [gpuEdgeWrite, eq_self_iff_true, true_or, or_true, if_true]
    rw [hpre _ (Or.inl rfl)]
  constructor
  · rw [hunfold, hpost _ _ (Or.inl rfl), hwrite1]
  · rw [hunfold, hpost _ _ (Or.inr rfl), hwrite2,
      hsym (route.getD i 0) (route.getD ((i + 1) % dim) 0)]

/-- Witness for C6. -/
theorem C6_global_update_witness :
    acsGlobalPheromoneUpdate 3 (1/2) (fun _ => 1) 2 [0, 1, 2]
        (([0, 1, 2] : List Nat).getD 1 0 * 3 + ([0, 1, 2] : List Nat).getD ((1 + 1) % 3) 0)
      = (1 - (1/2)) * (fun _ => (1:ℚ)) (([0, 1, 2] : List Nat).getD 1 0 * 3
          + ([0, 1, 2] : List Nat).getD ((1 + 1) % 3) 0) + (1/2) * (1 / 2) ∧
      acsGlobalPheromoneUpdate 3 (1/2) (fun _ => 1) 2 [0, 1, 2]
        (([0, 1, 2] : List Nat).getD ((1 + 1) % 3) 0 * 3 + ([0, 1, 2] : List Nat).getD 1 0)
      = (1 - (1/2)) * (fun _ => (1:ℚ)) (([0, 1, 2] : List Nat).getD ((1 + 1) % 3) 0 * 3
          + ([0, 1, 2] : List Nat).getD 1 0) + (1/2) * (1 / 2) :=
  C6_global_update 3 (1/2) (fun _ => 1) 2 [0, 1, 2] 1
    (by simp) (by simp) (by intro x hx; fin_cases hx <;> norm_num) (by norm_num)
    (by norm_num) (fun u v => rfl)

/-! ## Claim C7 -/

theorem foldl_add_eq (g : Nat → ℚ) (l : List Nat) (a : ℚ) :
    l.foldl (fun s i => s + g i) a = a + (l.map g).sum := by
  induction l generalizing a with
  | nil => simp
  | cons x xs ih =>
    simp only [List.foldl_cons, List.map_cons, List.sum_cons]
    rw [ih]
    ring

theorem list_range_map_sum (g : Nat → ℚ) (n : Nat) :
    ((List.range n).map g).sum = ∑ i ∈ Finset.range n, g i := by
  induction n with
  | zero => simp
  | succ k ih =>
    rw [List.range_succ, List.map_append, List.sum_append, Finset.sum_range_succ, ih]
    simp

theorem list_filter_map_sum (pred : Nat → Bool) (g : Nat → ℚ) (n : Nat) :
    (((List.range n).filter pred).map g).sum
      = ∑ i ∈ (Finset.range n).filter (fun i => pred i = true), g i := by
  induction n with
  | zero => simp
  | succ k ih =>
    rw [List.range_succ, List.filter_append, List.map_append, List.sum_append, ih,
      Finset.range_succ, Finset.filter_insert]
    by_cases h : pred k
    · rw [if_pos h, Finset.sum_insert (by simp)]
      simp [h]
      ring
    · rw [if_neg h]
      simp [h]

theorem threadStrideSum_eq (p : Problem) (route : List Nat) (B t : Nat) :
    threadStrideSum p route B t
      = ∑ i ∈ (Finset.range p.dimension).filter (fun i => i % B = t),
          tourDistAt p route i := by
  unfold threadStrideSum
  rw [foldl_add_eq, zero_add, list_filter_map_sum]
  apply Finset.sum_congr
  · apply Finset.filter_congr
    intro x _
    simp
  · intro x _
    rfl

theorem sum_stride_partition (p : Problem) (route : List Nat) (B : Nat) (hB : 0 < B) :
    ∑ t ∈ Finset.range B, threadStrideSum p route B t = specTourLength p route := by
  unfold specTourLength
  rw [Finset.sum_congr rfl (fun t _ => threadStrideSum_eq p route B t)]
  exact Finset.sum_fiberwise_of_maps_to (fun x hx => Finset.mem_range.2 (Nat.mod_lt _ hB)) _

theorem sum_range_add_q (f : Nat → ℚ) (m n : Nat) :
    ∑ i ∈ Finset.range (m + n), f i
      = (∑ i ∈ Finset.range m, f i) + ∑ i ∈ Finset.range n, f (m + i) := by
  induction n with
  | zero => simp
  | succ k ih =>
    rw [(by omega : m + (k + 1) = (m + k) + 1), Finset.sum_range_succ, ih,
      Finset.sum_range_succ]
    ring

theorem warp_regroup (f : Nat → ℚ) (nw : Nat) :
    ∑ w ∈ Finset.range nw, ∑ l ∈ Finset.range 32, f (w * 32 + l)
      = ∑ t ∈ Finset.range (nw * 32), f t := by
  induction nw with
  | zero => simp
  | succ k ih =>
    rw [Finset.sum_range_succ, ih, (by ring : (k + 1) * 32 = k * 32 + 32), sum_range_add_q]

theorem acsAntValue_eq_specTourLength (p : Problem) (route : List Nat) (nw : Nat)
    (hnw : 0 < nw) : acsAntValue p route nw = specTourLength p route := by
  unfold acsAntValue warp_reduce
  rw [foldl_add_eq, zero_add, list_range_map_sum]
  simp only [WARP_SIZE]
  rw [Finset.sum_congr rfl (fun w _ => list_range_map_sum
    (fun l => threadStrideSum p route (nw * 32) (w * 32 + l)) 32)]
  rw [warp_regroup (threadStrideSum p route (nw * 32)) nw]
  exact sum_stride_partition p route (nw * 32) (by omega)

theorem evalAntsSolutions_eq_specTourLength (p : Problem) (route : List Nat) :
    evalAntsSolutions p route = specTourLength p route := by
  unfold evalAntsSolutions warp_reduce
  rw [list_range_map_sum]
  simp only [WARP_SIZE]
  exact sum_stride_partition p route 32 (by norm_num)

/-- C7: the tour length written to the ant's value slot — by the
block-strided, warp-reduced tail of `acs_calc_solution` /
`acs_spm_calc_solution` and by the `eval_ants_solutions` kernel of the
per-step strategy — equals the sum over `i ∈ [0,N)` of
`dist(route[i], route[(i+1) mod N])` exactly (exact arithmetic stands in
for floating point). -/
theorem C7_tour_length (p : Problem) (route : List Nat) (q0 phi initPher dflt : ℚ)
    (m nw : Nat) (pher : Nat → Nat → Nat → ℚ) (qd rd : Nat → ℚ) (start : Nat)
    (slId : Nat → Nat → Nat → Nat) (slVal : Nat → Nat → Nat → ℚ) (cap : Nat)
    (junk : Nat → Nat → Nat) (hnw : 0 < nw) :
    acsAntValue p route nw = specTourLength p route ∧
      evalAntsSolutions p route = specTourLength p route ∧
      (acsKernel p q0 phi initPher m pher qd rd start nw).2
        = specTourLength p (acsKernel p q0 phi initPher m pher qd rd start nw).1.route ∧
      (spmKernel p slId slVal cap q0 phi dflt m junk qd rd start).2
        = specTourLength p
            (spmKernel p slId slVal cap q0 phi dflt m junk qd rd start).1.route := by
  refine ⟨acsAntValue_eq_specTourLength p route nw hnw,
    evalAntsSolutions_eq_specTourLength p route, ?_, ?_⟩
  · exact acsAntValue_eq_specTourLength p _ nw hnw
  · exact acsAntValue_eq_specTourLength p _ 1 (by norm_num)

/-- Witness for C7. -/
theorem C7_tour_length_witness :
    acsAntValue exProblem [0, 1, 2] 1 = specTourLength exProblem [0, 1, 2] ∧
      evalAntsSolutions exProblem [0, 1, 2] = specTourLength exProblem [0, 1, 2] ∧
      (acsKernel exProblem 1 (1/2) 1 1 (fun _ _ _ => 1) (fun _ => 0) (fun _ => 0) 0 1).2
        = specTourLength exProblem
            (acsKernel exProblem 1 (1/2) 1 1 (fun _ _ _ => 1) (fun _ => 0) (fun _ => 0) 0
              1).1.route ∧
      (spmKernel exProblem (fun _ _ s => s) (fun _ _ _ => 1) 8 1 (1/2) 1 1 (fun _ _ => 0)
          (fun _ => 0) (fun _ => 0) 0).2
        = specTourLength exProblem
            (spmKernel exProblem (fun _ _ s => s) (fun _ _ _ => 1) 8 1 (1/2) 1 1
              (fun _ _ => 0) (fun _ => 0) (fun _ => 0) 0).1.route :=
  C7_tour_length exProblem [0, 1, 2] 1 (1/2) 1 1 1 1 (fun _ _ _ => 1) (fun _ => 0)
    (fun _ => 0) 0 (fun _ _ s => s) (fun _ _ _ => 1) 8 (fun _ _ => 0) (by norm_num)

/-! ## Claim C2 -/

/-- C2 counterexample: the per-step strategy (`acs_select_next_node`, lines
563-580) performs the local deposit unconditionally on every step, ignoring
the configured frequency: with m = 2 on the 3-node instance a deposit event
exists for step 1 although 1 % 2 ≠ 0, so the deposit is not performed "iff
t mod m == 0" in every strategy. -/
theorem C2_counterexample :
    (∃ e ∈ (sepRun exProblem 1 (1/2) 1 (fun _ _ _ => 1) (fun _ => 0) (fun _ => 0)
      0).events, e.step = 1 ∧ e.closing = false) ∧ ¬(1 % 2 = 0) := by
  constructor
  · have hinv := sepInv_all exProblem 1 (1/2) 1 (fun _ _ _ => 1) (fun _ => 0) (fun _ => 0) 0
      (by norm_num [exProblem])
      (fun t u v => by norm_num [exProblem])
      (fun c l => by
        show l % 3 < 3
        exact Nat.mod_lt l (by norm_num))
      (exProblem.dimension - 1) (le_refl _)
    obtain ⟨-, -, -, -, -, -, -, -, hex, -, -⟩ := hinv
    exact hex 1 (by norm_num) (by norm_num [exProblem])
  · norm_num

/-- C2 (amended): in the monolithic and selective-memory strategies the
local deposit after committing step t is performed iff t mod m == 0, as a
memory `update` on the traversed edge with the local decay `phi` and the
constant deposit (the initial pheromone, resp. the selective memory's
default pheromone); the per-step strategy instead performs the deposit on
every step, ignoring m. -/
theorem C2_local_update_frequency
    (p : Problem) (q0 phi initPher dflt : ℚ) (m : Nat)
    (pher : Nat → Nat → Nat → ℚ) (qd rd : Nat → ℚ) (start : Nat)
    (slId : Nat → Nat → Nat → Nat) (slVal : Nat → Nat → Nat → ℚ) (cap : Nat)
    (junk : Nat → Nat → Nat) (t : Nat)
    (hdim : p.dimension ≤ 32 * MAX_VISITED_SIZE)
    (hstart : start < p.dimension)
    (hheur : ∀ u v, 0 < p.heuristic u v)
    (hpher : ∀ s u v, 0 < pher s u v)
    (hdflt : 0 < dflt)
    (hnn : ∀ c l, p.nn c l < p.dimension)
    (ht1 : 1 ≤ t) (ht2 : t < p.dimension) :
    ((∃ e ∈ (acsConstruct p q0 phi initPher m pher qd rd start).events, e.step = t)
        ↔ t % m = 0) ∧
      (∀ e ∈ (acsConstruct p q0 phi initPher m pher qd rd start).events,
        e.decay = phi ∧ e.deposit = initPher ∧ e.closing = false ∧
          e.u = (acsConstruct p q0 phi initPher m pher qd rd start).route.getD e.step 0 ∧
          e.v = (acsConstruct p q0 phi initPher m pher qd rd start).route.getD
            (e.step - 1) 0) ∧
      ((∃ e ∈ (spmConstructN p slId slVal cap q0 phi dflt m junk qd rd start
          (p.dimension - 1)).events, e.step = t) ↔ t % m = 0) ∧
      (∀ e ∈ (spmConstructN p slId slVal cap q0 phi dflt m junk qd rd start
          (p.dimension - 1)).events, e.decay = phi ∧ e.deposit = dflt ∧
          e.closing = false) ∧
      (∃ e ∈ (sepRun p q0 phi initPher pher qd rd start).events,
        e.step = t ∧ e.closing = false) ∧
      (∀ e ∈ (sepRun p q0 phi initPher pher qd rd start).events, e.closing = false →
        e.decay = phi ∧ e.deposit = initPher ∧
          e.u = (sepRun p q0 phi initPher pher qd rd start).route.getD (e.step - 1) 0 ∧
          e.v = (sepRun p q0 phi initPher pher qd rd start).route.getD e.step 0) := by
  have hhp : ∀ s u v, 0 < p.heuristic u v * pher s u v :=
    fun s u v => mul_pos (hheur u v) (hpher s u v)
  obtain ⟨-, -, -, -, -, -, hevA, hexA⟩ :=
    acsInv_all p q0 phi initPher m pher qd rd start hdim hstart hhp hnn
      (p.dimension - 1) (le_refl _)
  obtain ⟨-, -, -, -, -, -, hevS, hexS⟩ :=
    spmInv_all p slId slVal cap q0 phi dflt m junk qd rd start hdim hstart hheur hdflt hnn
      (p.dimension - 1) (le_refl _)
  obtain ⟨-, -, -, -, -, -, -, hevP, hexP, -, -⟩ :=
    sepInv_all p q0 phi initPher pher qd rd start hstart hhp hnn
      (p.dimension - 1) (le_refl _)
  refine ⟨⟨?_, ?_⟩, ?_, ⟨?_, ?_⟩, ?_, ?_, ?_⟩
  · rintro ⟨e, he, hstep⟩
    obtain ⟨-, -, -, -, -, hmod, -, -⟩ := hevA e he
    rw [← hstep]
    exact hmod
  · intro hmod
    obtain ⟨e, he, hstep⟩ := hexA t ht1 (by omega) hmod
    exact ⟨e, he, hstep⟩
  · intro e he
    obtain ⟨hc, hd, hdep, -, -, -, hu, hv⟩ := hevA e he
    exact ⟨hd, hdep, hc, hu, hv⟩
  · rintro ⟨e, he, hstep⟩
    obtain ⟨-, -, -, -, -, hmod, -, -⟩ := hevS e he
    rw [← hstep]
    exact hmod
  · intro hmod
    obtain ⟨e, he, hstep⟩ := hexS t ht1 (by omega) hmod
    exact ⟨e, he, hstep⟩
  · intro e he
    obtain ⟨hc, hd, hdep, -⟩ := hevS e he
    exact ⟨hd, hdep, hc⟩
  · exact hexP t ht1 (by omega)
  · intro e he hc
    obtain ⟨hd, hdep, -, -, hu, hv⟩ := hevP e he hc
    exact ⟨hd, hdep, hu, hv⟩

/-- Witness for C2 (amended) at the concrete 3-node instance, t = 1, m = 1. -/
theorem C2_local_update_frequency_witness :
    ((∃ e ∈ (acsConstruct exProblem 1 (1/2) 1 1 (fun _ _ _ => 1) (fun _ => 0) (fun _ => 0)
        0).events, e.step = 1) ↔ 1 % 1 = 0) ∧
      (∀ e ∈ (acsConstruct exProblem 1 (1/2) 1 1 (fun _ _ _ => 1) (fun _ => 0) (fun _ => 0)
        0).events,
        e.decay = 1/2 ∧ e.deposit = 1 ∧ e.closing = false ∧
          e.u = (acsConstruct exProblem 1 (1/2) 1 1 (fun _ _ _ => 1) (fun _ => 0)
            (fun _ => 0) 0).route.getD e.step 0 ∧
          e.v = (acsConstruct exProblem 1 (1/2) 1 1 (fun _ _ _ => 1) (fun _ => 0)
            (fun _ => 0) 0).route.getD (e.step - 1) 0) ∧
      ((∃ e ∈ (spmConstructN exProblem (fun _ _ s => s) (fun _ _ _ => 1) 8 1 (1/2) 1 1
          (fun _ _ => 0) (fun _ => 0) (fun _ => 0) 0
          (exProblem.dimension - 1)).events, e.step = 1) ↔ 1 % 1 = 0) ∧
      (∀ e ∈ (spmConstructN exProblem (fun _ _ s => s) (fun _ _ _ => 1) 8 1 (1/2) 1 1
          (fun _ _ => 0) (fun _ => 0) (fun _ => 0) 0 (exProblem.dimension - 1)).events,
          e.decay = 1/2 ∧ e.deposit = 1 ∧ e.closing = false) ∧
      (∃ e ∈ (sepRun exProblem 1 (1/2) 1 (fun _ _ _ => 1) (fun _ => 0) (fun _ => 0)
        0).events, e.step = 1 ∧ e.closing = false) ∧
      (∀ e ∈ (sepRun exProblem 1 (1/2) 1 (fun _ _ _ => 1) (fun _ => 0) (fun _ => 0)
        0).events, e.closing = false →
        e.decay = 1/2 ∧ e.deposit = 1 ∧
          e.u = (sepRun exProblem 1 (1/2) 1 (fun _ _ _ => 1) (fun _ => 0) (fun _ => 0)
            0).route.getD (e.step - 1) 0 ∧
          e.v = (sepRun exProblem 1 (1/2) 1 (fun _ _ _ => 1) (fun _ => 0) (fun _ => 0)
            0).route.getD e.step 0) :=
  C2_local_update_frequency exProblem 1 (1/2) 1 1 1 (fun _ _ _ => 1) (fun _ => 0)
    (fun _ => 0) 0 (fun _ _ s => s) (fun _ _ _ => 1) 8 (fun _ _ => 0) 1
    (by norm_num [exProblem, MAX_VISITED_SIZE])
    (by norm_num [exProblem])
    (fun _ _ => one_pos)
    (fun _ _ _ => one_pos)
    one_pos
    (fun _ l => by
      show l % 3 < 3
      exact Nat.mod_lt l (by norm_num))
    (by norm_num)
    (by norm_num [exProblem])

/-! ## Claim C3 -/

/-- Helper: the closing-edge updates of the monolithic kernel.  Lines
234-238 sit outside any `tid == 0` guard, so when due (`dimension % freq ==
0`) the update is executed once by every one of the `nw * 32` threads of
the ant's block. -/
theorem acsKernel_closing_count
    (p : Problem) (q0 phi initPher : ℚ) (m nw : Nat)
    (pher : Nat → Nat → Nat → ℚ) (qd rd : Nat → ℚ) (start : Nat)
    (hdim : p.dimension ≤ 32 * MAX_VISITED_SIZE)
    (hstart : start < p.dimension)
    (hheur : ∀ u v, 0 < p.heuristic u v)
    (hpher : ∀ s u v, 0 < pher s u v)
    (hnn : ∀ c l, p.nn c l < p.dimension) :
    (((acsKernel p q0 phi initPher m pher qd rd start nw).1.events.filter
        (fun e => e.closing)).length = if p.dimension % m = 0 then nw * 32 else 0) ∧
      (∀ e ∈ (acsKernel p q0 phi initPher m pher qd rd start nw).1.events,
        e.closing = true →
          e.step = p.dimension ∧ e.decay = phi ∧ e.deposit = initPher ∧
          e.u = (acsKernel p q0 phi initPher m pher qd rd start nw).1.route.getD
            (p.dimension - 1) 0 ∧
          e.v = (acsKernel p q0 phi initPher m pher qd rd start nw).1.route.getD 0 0) := by
  have hhp : ∀ s u v, 0 < p.heuristic u v * pher s u v :=
    fun s u v => mul_pos (hheur u v) (hpher s u v)
  obtain ⟨-, -, -, -, -, -, hev, -⟩ :=
    acsInv_all p q0 phi initPher m pher qd rd start hdim hstart hhp hnn
      (p.dimension - 1) (le_refl _)
  have hkev : (acsKernel p q0 phi initPher m pher qd rd start nw).1.events
      = (acsConstruct p q0 phi initPher m pher qd rd start).events ++
        (if p.dimension % m == 0 then
          (List.range (nw * 32)).map (fun _ =>
            (⟨p.dimension,
              (acsConstruct p q0 phi initPher m pher qd rd start).route.getD
                (p.dimension - 1) 0,
              (acsConstruct p q0 phi initPher m pher qd rd start).route.getD 0 0,
              phi, initPher, true⟩ : PherUpdate))
        else []) := rfl
  have hfc : (acsConstruct p q0 phi initPher m pher qd rd start).events.filter
      (fun e => e.closing) = [] := by
    rw [List.filter_eq_nil_iff]
    intro e he
    have := (hev e he).1
    simp [this]
  constructor
  · rw [hkev, List.filter_append, hfc, List.length_append]
    by_cases hm : p.dimension % m = 0
    · rw [if_pos (by simpa using hm), if_pos hm]
      rw [List.filter_eq_self.2 (by
        intro e he
        obtain ⟨a, -, ha⟩ := List.mem_map.1 he
        rw [← ha])]
      simp
    · rw [if_neg (by simpa using hm), if_neg hm]
      simp
  · intro e he hc
    rw [hkev] at he
    rcases List.mem_append.1 he with he | he
    · have := (hev e he).1
      rw [hc] at this
      exact absurd this.symm Bool.false_ne_true
    · by_cases hm : p.dimension % m = 0
      · rw [if_pos (by simpa using hm)] at he
        obtain ⟨a, -, ha⟩ := List.mem_map.1 he
        rw [← ha]
        exact ⟨rfl, rfl, rfl, rfl, rfl⟩
      · rw [if_neg (by simpa using hm)] at he
        simp at he

/-- C3 counterexample: on the 3-node instance with frequency m = 1 (the
closing update is due: 3 % 1 = 0) and the default 32-thread block, the
monolithic kernel performs the closing-edge deposit 32 times per ant — once
per thread, because lines 234-238 are outside the `tid == 0` guard — not
exactly once. -/
theorem C3_counterexample :
    ¬((((acsKernel exProblem 1 (1/2) 1 1 (fun _ _ _ => 1) (fun _ => 0) (fun _ => 0) 0
        1).1.events.filter (fun e => e.closing)).length = 1)) ∧
      exProblem.dimension % 1 = 0 := by
  constructor
  · have h := (acsKernel_closing_count exProblem 1 (1/2) 1 1 1 (fun _ _ _ => 1)
      (fun _ => 0) (fun _ => 0) 0
      (by norm_num [exProblem, MAX_VISITED_SIZE])
      (by norm_num [exProblem])
      (fun _ _ => one_pos)
      (fun _ _ _ => one_pos)
      (fun _ l => by
        show l % 3 < 3
        exact Nat.mod_lt l (by norm_num))).1
    rw [h, if_pos (by norm_num [exProblem])]
    norm_num
  · norm_num [exProblem]

/-- C3 (amended): when due under the frequency rule (`N % m == 0`) the
monolithic kernel deposits on the closing edge once per **thread** of the
ant's block (`nw * 32` times per ant, 32 under the default configuration),
not exactly once, with decay phi and the initial-pheromone deposit; the
per-step strategy deposits on the closing edge exactly once per ant,
unconditionally, on the final step; the selective-memory kernel performs no
closing-edge deposit at all. -/
theorem C3_closing_updates
    (p : Problem) (q0 phi initPher dflt : ℚ) (m nw : Nat)
    (pher : Nat → Nat → Nat → ℚ) (qd rd : Nat → ℚ) (start : Nat)
    (slId : Nat → Nat → Nat → Nat) (slVal : Nat → Nat → Nat → ℚ) (cap : Nat)
    (junk : Nat → Nat → Nat)
    (hdim : p.dimension ≤ 32 * MAX_VISITED_SIZE)
    (hstart : start < p.dimension)
    (hheur : ∀ u v, 0 < p.heuristic u v)
    (hpher : ∀ s u v, 0 < pher s u v)
    (hdflt : 0 < dflt)
    (hnn : ∀ c l, p.nn c l < p.dimension)
    (hdim2 : 2 ≤ p.dimension) :
    (((acsKernel p q0 phi initPher m pher qd rd start nw).1.events.filter
        (fun e => e.closing)).length = if p.dimension % m = 0 then nw * 32 else 0) ∧
      (∀ e ∈ (acsKernel p q0 phi initPher m pher qd rd start nw).1.events,
        e.closing = true →
          e.step = p.dimension ∧ e.decay = phi ∧ e.deposit = initPher ∧
          e.u = (acsKernel p q0 phi initPher m pher qd rd start nw).1.route.getD
            (p.dimension - 1) 0 ∧
          e.v = (acsKernel p q0 phi initPher m pher qd rd start nw).1.route.getD 0 0) ∧
      ((spmKernel p slId slVal cap q0 phi dflt m junk qd rd start).1.events.filter
        (fun e => e.closing) = []) ∧
      (((sepRun p q0 phi initPher pher qd rd start).events.filter
        (fun e => e.closing)).length = 1) ∧
      (∀ e ∈ (sepRun p q0 phi initPher pher qd rd start).events, e.closing = true →
        e.step = p.dimension ∧ e.decay = phi ∧ e.deposit = initPher ∧
          e.u = (sepRun p q0 phi initPher pher qd rd start).route.getD
            (p.dimension - 1) 0 ∧
          e.v = (sepRun p q0 phi initPher pher qd rd start).route.getD 0 0) := by
  have hhp : ∀ s u v, 0 < p.heuristic u v * pher s u v :=
    fun s u v => mul_pos (hheur u v) (hpher s u v)
  obtain ⟨hacs1, hacs2⟩ := acsKernel_closing_count p q0 phi initPher m nw pher qd rd start
    hdim hstart hheur hpher hnn
  obtain ⟨-, -, -, -, -, -, hevS, -⟩ :=
    spmInv_all p slId slVal cap q0 phi dflt m junk qd rd start hdim hstart hheur hdflt hnn
      (p.dimension - 1) (le_refl _)
  obtain ⟨-, -, -, -, -, -, -, -, -, hclo, hcnt⟩ :=
    sepInv_all p q0 phi initPher pher qd rd start hstart hhp hnn
      (p.dimension - 1) (le_refl _)
  refine ⟨hacs1, hacs2, ?_, ?_, ?_⟩
  · rw [List.filter_eq_nil_iff]
    intro e he
    have := (hevS e he).1
    simp [this]
  · show ((sepRunN p q0 phi initPher pher qd rd start
      (p.dimension - 1)).events.filter (fun e => e.closing)).length = 1
    rw [hcnt, if_pos (by omega)]
  · intro e he hc
    exact hclo e he hc

/-- Witness for C3 (amended) at the concrete 3-node instance, m = 1, one
warp per block. -/
theorem C3_closing_updates_witness :
    (((acsKernel exProblem 1 (1/2) 1 1 (fun _ _ _ => 1) (fun _ => 0) (fun _ => 0) 0
        1).1.events.filter (fun e => e.closing)).length
      = if exProblem.dimension % 1 = 0 then 1 * 32 else 0) ∧
      (∀ e ∈ (acsKernel exProblem 1 (1/2) 1 1 (fun _ _ _ => 1) (fun _ => 0) (fun _ => 0) 0
        1).1.events, e.closing = true →
          e.step = exProblem.dimension ∧ e.decay = 1/2 ∧ e.deposit = 1 ∧
          e.u = (acsKernel exProblem 1 (1/2) 1 1 (fun _ _ _ => 1) (fun _ => 0)
            (fun _ => 0) 0 1).1.route.getD (exProblem.dimension - 1) 0 ∧
          e.v = (acsKernel exProblem 1 (1/2) 1 1 (fun _ _ _ => 1) (fun _ => 0)
            (fun _ => 0) 0 1).1.route.getD 0 0) ∧
      ((spmKernel exProblem (fun _ _ s => s) (fun _ _ _ => 1) 8 1 (1/2) 1 1
        (fun _ _ => 0) (fun _ => 0) (fun _ => 0) 0).1.events.filter
        (fun e => e.closing) = []) ∧
      (((sepRun exProblem 1 (1/2) 1 (fun _ _ _ => 1) (fun _ => 0) (fun _ => 0)
        0).events.filter (fun e => e.closing)).length = 1) ∧
      (∀ e ∈ (sepRun exProblem 1 (1/2) 1 (fun _ _ _ => 1) (fun _ => 0) (fun _ => 0)
        0).events, e.closing = true →
          e.step = exProblem.dimension ∧ e.decay = 1/2 ∧ e.deposit = 1 ∧
          e.u = (sepRun exProblem 1 (1/2) 1 (fun _ _ _ => 1) (fun _ => 0) (fun _ => 0)
            0).route.getD (exProblem.dimension - 1) 0 ∧
          e.v = (sepRun exProblem 1 (1/2) 1 (fun _ _ _ => 1) (fun _ => 0) (fun _ => 0)
            0).route.getD 0 0) :=
  C3_closing_updates exProblem 1 (1/2) 1 1 1 1 (fun _ _ _ => 1) (fun _ => 0) (fun _ => 0)
    0 (fun _ _ s => s) (fun _ _ _ => 1) 8 (fun _ _ => 0)
    (by norm_num [exProblem, MAX_VISITED_SIZE])
    (by norm_num [exProblem])
    (fun _ _ => one_pos)
    (fun _ _ _ => one_pos)
    one_pos
    (fun _ l => by
      show l % 3 < 3
      exact Nat.mod_lt l (by norm_num))
    (by norm_num [exProblem])

/-! ## Claim C8 -/

/-- C8: in the selective-memory exploitation branch, whenever some nearest
neighbour is unvisited (the branch's `__any` guard) and the heuristic and
default-pheromone values are positive, at least one of `nn_product` (the
best default-pheromone neighbour candidate) and `max_product` (the best
short-list candidate) is positive, and the node actually selected is
unvisited — the two assertions of lines 338 and 340 hold. -/
theorem C8_spm_exploit_asserts (p : Problem) (slId : Nat → Nat → Nat)
    (slVal : Nat → Nat → ℚ) (cap : Nat) (initPher : ℚ) (junk : Nat → Nat)
    (vis : List Nat) (curr : Nat)
    (hnn : ∀ l, p.nn curr l < p.dimension)
    (hheur : ∀ v, 0 < p.heuristic curr v)
    (hinit : 0 < initPher)
    (hsome : ∃ l, l < WARP_SIZE ∧ is_node_visited vis (p.nn curr l) = false) :
    (0 < spmNNProduct p initPher vis curr ∨
      0 < spmMaxProduct p slId slVal cap vis curr) ∧
      is_node_visited vis (spmExploitNext p slId slVal cap initPher junk vis curr)
        = false := by
  obtain ⟨h1, h2⟩ := spmExploitNext_sound p slId slVal cap initPher junk vis curr hnn
    hheur hinit hsome
  exact ⟨h1, h2.2⟩

/-- Witness for C8 with an empty visited set at node 0. -/
theorem C8_spm_exploit_asserts_witness :
    (0 < spmNNProduct exProblem 1 (List.replicate MAX_VISITED_SIZE 0) 0 ∨
      0 < spmMaxProduct exProblem (fun _ s => s) (fun _ _ => 1) 8
        (List.replicate MAX_VISITED_SIZE 0) 0) ∧
      is_node_visited (List.replicate MAX_VISITED_SIZE 0)
        (spmExploitNext exProblem (fun _ s => s) (fun _ _ => 1) 8 1 (fun _ => 0)
          (List.replicate MAX_VISITED_SIZE 0) 0) = false :=
  C8_spm_exploit_asserts exProblem (fun _ s => s) (fun _ _ => 1) 8 1 (fun _ => 0)
    (List.replicate MAX_VISITED_SIZE 0) 0
    (fun l => by
      show l % 3 < 3
      exact Nat.mod_lt l (by norm_num))
    (fun _ => one_pos)
    one_pos
    ⟨0, by norm_num [WARP_SIZE], is_node_visited_replicate_zero _ _⟩

end GPUACS
